import Mathlib

/-!
# hesim : `src/rand.cpp`

A verification development for the three routines of `src/rand.cpp`:
`qgompertzC` (Gompertz quantile), `rgompertzC` (inverse-transform sampler) and
`rsurv` (dispatcher on the distribution name).

## Modelling conventions

* A C `double` is modelled by `Dbl`: a real number, `+inf`, `-inf` or NaN.
  The arithmetic is given two readings, both with the IEEE 754 rules for
  infinities and NaN and without a signed zero (the single zero behaves as `+0`).
  - Real-number reading (`Dbl.add`, `Dbl.mul`, `Dbl.div`, `Dbl.log`, `Dbl.exp`,
    and `qexp`, `qgompertzC`, `rgompertzC`, `rsurv` built on them): a finite
    result is the exact real result, so nothing rounds, overflows or underflows.
    It gives the real number that a C expression denotes.  It is used where the
    arithmetic occurs only symbolically (which branch is taken, which sampler is
    called with which argument expression) and for the exact value of a formula.
  - Binary64 reading (`Dbl.add64`, `Dbl.mul64`, `Dbl.div64`, `Dbl.log64`,
    `Dbl.exp64`, and `qexp64`, `qgompertzC64`, `rgompertzC64`, `rsurv64`): every
    finite result is rounded to the nearest binary64 number, overflows to an
    infinity and underflows to zero.  Statements about the values the program
    computes are made in this reading.
  The definitions use real numbers and `Real.log`/`Real.exp`, hence are
  `noncomputable`; they are evaluated in proofs by rewriting.
* `R::qexp` is part of R's math library, not of this repository; it is
  transcribed from R's `nmath/qexp.c` and `nmath/dpq.h`.
* The random samplers `R::runif`, `R::rexp`, `R::rweibull` are external: they
  are modelled by an arbitrary oracle on an abstract generator state, and every
  call is recorded in a trace.
-/

namespace Hesim

open Classical

/-! ## C doubles -/

/-- Values of a C `double`: a real number, an infinity or NaN. -/
inductive Dbl where
  | fin (x : ℝ)
  | pinf
  | ninf
  | nan

namespace Dbl

/-- C macro `isnan`. -/
def isnan : Dbl → Prop
  | nan => True
  | _ => False

/-- Unary minus. -/
noncomputable def neg : Dbl → Dbl
  | fin x => fin (-x)
  | pinf => ninf
  | ninf => pinf
  | nan => nan

/-- IEEE addition in the real-number reading (the exact sum, no rounding): opposite
infinities give NaN. The rounded operation is `Dbl.add64`. -/
noncomputable def add : Dbl → Dbl → Dbl
  | fin x, fin y => fin (x + y)
  | fin _, pinf => pinf
  | fin _, ninf => ninf
  | pinf, fin _ => pinf
  | pinf, pinf => pinf
  | ninf, fin _ => ninf
  | ninf, ninf => ninf
  | _, _ => nan

/-- IEEE subtraction, `a - b = a + (-b)`. -/
noncomputable def sub (a b : Dbl) : Dbl := add a (neg b)

/-- The infinity carrying the sign of a non-zero real; NaN for zero. -/
noncomputable def signedInf (x : ℝ) : Dbl :=
  if 0 < x then pinf else if x < 0 then ninf else nan

/-- IEEE multiplication in the real-number reading: `0 * inf` is NaN. The rounded
operation is `Dbl.mul64`. -/
noncomputable def mul : Dbl → Dbl → Dbl
  | fin x, fin y => fin (x * y)
  | fin x, pinf => signedInf x
  | fin x, ninf => signedInf (-x)
  | pinf, fin y => signedInf y
  | ninf, fin y => signedInf (-y)
  | pinf, pinf => pinf
  | ninf, ninf => pinf
  | pinf, ninf => ninf
  | ninf, pinf => ninf
  | _, _ => nan

/-- IEEE division in the real-number reading (the exact quotient, no rounding and no
overflow): `x / 0` is an infinity for `x ≠ 0` (the zero is `+0`), `0 / 0` and `inf / inf`
are NaN, a finite value over an infinity is `0`. The rounded operation, which overflows,
is `Dbl.div64`. -/
noncomputable def div : Dbl → Dbl → Dbl
  | fin x, fin y => if y = 0 then signedInf x else fin (x / y)
  | fin _, pinf => fin 0
  | fin _, ninf => fin 0
  | pinf, fin y => if y < 0 then ninf else pinf
  | ninf, fin y => if y < 0 then pinf else ninf
  | _, _ => nan

/-- C comparison `a == b`; false whenever an operand is NaN. -/
def eq : Dbl → Dbl → Prop
  | fin x, fin y => x = y
  | pinf, pinf => True
  | ninf, ninf => True
  | _, _ => False

/-- C comparison `a < b`; false whenever an operand is NaN. -/
def lt : Dbl → Dbl → Prop
  | fin x, fin y => x < y
  | fin _, pinf => True
  | ninf, fin _ => True
  | ninf, pinf => True
  | _, _ => False

/-- C library `log` in the real-number reading: `log(0) = -inf`, NaN on a negative
argument. The rounded function is `Dbl.log64`. -/
noncomputable def log : Dbl → Dbl
  | fin x => if 0 < x then fin (Real.log x) else if x = 0 then ninf else nan
  | pinf => pinf
  | _ => nan

/-- C library `log1p(x) = log(1 + x)`. -/
noncomputable def log1p (x : Dbl) : Dbl := log (add (fin 1) x)

/-- C library `exp` in the real-number reading (no underflow, no overflow):
`exp(-inf) = 0`, `exp(+inf) = +inf`. The rounded function, which underflows to `0` and
overflows to `+inf`, is `Dbl.exp64`. -/
noncomputable def exp : Dbl → Dbl
  | fin x => fin (Real.exp x)
  | pinf => pinf
  | ninf => fin 0
  | nan => nan

end Dbl

open Dbl

/-! ## R's exponential quantile (`nmath/qexp.c`, `nmath/dpq.h`) -/

/-- R macro `R_D__0`: `log_p ? ML_NEGINF : 0.`. -/
noncomputable def R_D__0 (log_p : Bool) : Dbl := if log_p then ninf else fin 0

/-- R macro `R_D__1`: `log_p ? 0. : 1.`. -/
noncomputable def R_D__1 (log_p : Bool) : Dbl := if log_p then fin 0 else fin 1

/-- R macro `R_DT_0`: `lower_tail ? R_D__0 : R_D__1`. -/
noncomputable def R_DT_0 (lower_tail log_p : Bool) : Dbl :=
  if lower_tail then R_D__0 log_p else R_D__1 log_p

/-- R macro `R_Log1_Exp(x)`, which computes `log(1 - exp(x))`. -/
noncomputable def R_Log1_Exp (x : Dbl) : Dbl := Dbl.log (Dbl.sub (fin 1) (Dbl.exp x))

/-- R macro `R_D_LExp(x)`: `log_p ? R_Log1_Exp(x) : log1p(-x)`. -/
noncomputable def R_D_LExp (x : Dbl) (log_p : Bool) : Dbl :=
  if log_p then R_Log1_Exp x else Dbl.log1p (Dbl.neg x)

/-- R macro `R_D_log(p)`: `log_p ? p : log(p)`. -/
noncomputable def R_D_log (p : Dbl) (log_p : Bool) : Dbl :=
  if log_p then p else Dbl.log p

/-- R macro `R_DT_Clog(p)`: `lower_tail ? R_D_LExp(p) : R_D_log(p)`. -/
noncomputable def R_DT_Clog (p : Dbl) (lower_tail log_p : Bool) : Dbl :=
  if lower_tail then R_D_LExp p log_p else R_D_log p log_p

/-- R's C-level `qexp(p, scale, lower_tail, log_p)`.  Its second argument is the
SCALE (the mean) of the exponential distribution, not the rate:
the result is `- scale * R_DT_Clog(p)`. -/
noncomputable def qexp (p scale : Dbl) (lower_tail log_p : Bool) : Dbl :=
  if Dbl.isnan p ∨ Dbl.isnan scale then Dbl.add p scale
  else if Dbl.lt scale (fin 0) then nan
  else if (log_p = true ∧ Dbl.lt (fin 0) p) ∨
      (log_p = false ∧ (Dbl.lt p (fin 0) ∨ Dbl.lt (fin 1) p)) then nan
  else if Dbl.eq p (R_DT_0 lower_tail log_p) then fin 0
  else Dbl.mul (Dbl.neg scale) (R_DT_Clog p lower_tail log_p)

/-! ## `src/rand.cpp` -/

/-- `qgompertzC` of `src/rand.cpp`, lines 7-19. -/
noncomputable def qgompertzC (p shape rate : Dbl) : Dbl :=
  if Dbl.eq shape (fin 0) then
    qexp p rate true false
  else if Dbl.lt shape (fin 0) then
    pinf
  else
    Dbl.mul (Dbl.div (fin 1) shape)
      (Dbl.log (Dbl.sub (fin 1) (Dbl.div (Dbl.mul shape (Dbl.log (Dbl.sub (fin 1) p))) rate)))

/-- A call to one of R's external samplers, with its arguments. -/
inductive Call where
  | runif (a b : Dbl)
  | rexp (scale : Dbl)
  | rweibull (shape scale : Dbl)

/-- The external random source: from a call and the generator state it gives
the variate drawn and the next generator state. -/
abbrev Sampler (σ : Type) : Type := Call → σ → Dbl × σ

/-- Random-source state: the generator state together with the calls made so far,
oldest first. -/
structure RState (σ : Type) where
  gen : σ
  trace : List Call

/-- One call to an external sampler: the variate is returned, the generator
state advances and the call is appended to the trace. -/
def draw {σ : Type} (R : Sampler σ) (c : Call) (s : RState σ) : Dbl × RState σ :=
  ((R c s.gen).1, ⟨(R c s.gen).2, s.trace ++ [c]⟩)

/-- `rgompertzC` of `src/rand.cpp`, lines 22-25. -/
noncomputable def rgompertzC {σ : Type} (R : Sampler σ) (shape rate : Dbl) (s : RState σ) :
    Dbl × RState σ :=
  let r := draw R (Call.runif (fin 0) (fin 1)) s
  let u := r.1
  (qgompertzC u shape rate, r.2)

/-- `rsurv` of `src/rand.cpp`, lines 29-46. -/
noncomputable def rsurv {σ : Type} (R : Sampler σ) (location par2 : Dbl) (dist : String)
    (s : RState σ) : Dbl × RState σ :=
  let surv : Dbl := fin 0
  if dist = "exponential" then
    let rate := Dbl.exp location
    draw R (Call.rexp (Dbl.div (fin 1) rate)) s
  else if dist = "weibull" then
    let shape := Dbl.exp par2
    let scale := Dbl.exp location
    draw R (Call.rweibull shape scale) s
  else if dist = "gompertz" then
    let shape := Dbl.exp par2
    let rate := Dbl.exp location
    rgompertzC R shape rate s
  else
    (surv, s)

/-! ## Observing the trace -/

/-- The three external random sources. -/
inductive Source where
  | uniform
  | exponential
  | weibull
  deriving DecidableEq

/-- The source a call is addressed to. -/
def Call.source : Call → Source
  | Call.runif _ _ => Source.uniform
  | Call.rexp _ => Source.exponential
  | Call.rweibull _ _ => Source.weibull

/-- Number of calls to a given source recorded in a trace. -/
def callsTo (src : Source) (tr : List Call) : Nat :=
  tr.countP (fun c => decide (c.source = src))

/-- The real number carried by a finite double; `0` for the infinities and NaN.
Only used to state limits of finite-valued expressions. -/
noncomputable def Dbl.toReal : Dbl → ℝ
  | Dbl.fin x => x
  | _ => 0

/-! ## Specification-side function -/

/-- The Gompertz distribution function, as the specification writes it:
`F(t) = 1 - exp(-(rate/shape) * (exp(shape*t) - 1))`. -/
noncomputable def gompertzCDF (shape rate t : ℝ) : ℝ :=
  1 - Real.exp (-(rate / shape) * (Real.exp (shape * t) - 1))

/-! ## Binary64 rounding

The definitions above compute in exact real arithmetic.  The definitions below
compute as IEEE 754 binary64 does: every finite result is rounded to the nearest
binary64 number, ties to even, it becomes an infinity when the rounded magnitude
reaches `2^1024`, and magnitudes below half the smallest subnormal round to zero.
Each C operation is rounded once, to binary64 (no extended precision, no fused
multiply-add).  The C library functions `log`, `log1p`, `expm1` and `exp` are taken to
return the correctly rounded value.  The sign of zero is not modelled. -/

/-- Round to the nearest integer, ties to the even one. -/
noncomputable def roundEven (m : ℝ) : ℤ :=
  if Int.fract m < 1 / 2 then ⌊m⌋
  else if 1 / 2 < Int.fract m then ⌊m⌋ + 1
  else if Even ⌊m⌋ then ⌊m⌋ else ⌊m⌋ + 1

/-- Binary exponent of a positive real: `e` with `2^e ≤ x < 2^(e+1)`, but never below
`-1022`, the exponent shared by the subnormal numbers. -/
noncomputable def b64Exp (x : ℝ) : ℤ := max (Int.log 2 x) (-1022)

/-- Spacing of the binary64 numbers in the binade of `x` (53 significant bits). -/
noncomputable def b64Ulp (x : ℝ) : ℝ := (2 : ℝ) ^ (b64Exp x - 52)

/-- Round-to-nearest-even of a non-negative real onto the binary64 grid, the exponent
not bounded above. -/
noncomputable def b64RoundNonneg (x : ℝ) : ℝ := (roundEven (x / b64Ulp x) : ℝ) * b64Ulp x

/-- Round-to-nearest-even of a real onto the binary64 grid (symmetric in the sign), the
exponent not bounded above. -/
noncomputable def b64Round (x : ℝ) : ℝ :=
  if 0 ≤ x then b64RoundNonneg x else -b64RoundNonneg (-x)

/-- The binary64 value delivered for an exact real result: the rounded value, or an
infinity on overflow. -/
noncomputable def Dbl.ofReal (x : ℝ) : Dbl :=
  if (2 : ℝ) ^ (1024 : ℤ) ≤ b64Round x then pinf
  else if b64Round x ≤ -(2 : ℝ) ^ (1024 : ℤ) then ninf
  else fin (b64Round x)

namespace Dbl

/-- C comparison `a <= b`; false whenever an operand is NaN. -/
def le : Dbl → Dbl → Prop
  | fin x, fin y => x ≤ y
  | fin _, pinf => True
  | ninf, fin _ => True
  | ninf, pinf => True
  | ninf, ninf => True
  | pinf, pinf => True
  | _, _ => False

/-- Binary64 addition. -/
noncomputable def add64 : Dbl → Dbl → Dbl
  | fin x, fin y => ofReal (x + y)
  | fin _, pinf => pinf
  | fin _, ninf => ninf
  | pinf, fin _ => pinf
  | pinf, pinf => pinf
  | ninf, fin _ => ninf
  | ninf, ninf => ninf
  | _, _ => nan

/-- Binary64 subtraction, `a - b = a + (-b)`. -/
noncomputable def sub64 (a b : Dbl) : Dbl := add64 a (neg b)

/-- Binary64 multiplication. -/
noncomputable def mul64 : Dbl → Dbl → Dbl
  | fin x, fin y => ofReal (x * y)
  | fin x, pinf => signedInf x
  | fin x, ninf => signedInf (-x)
  | pinf, fin y => signedInf y
  | ninf, fin y => signedInf (-y)
  | pinf, pinf => pinf
  | ninf, ninf => pinf
  | pinf, ninf => ninf
  | ninf, pinf => ninf
  | _, _ => nan

/-- Binary64 division. -/
noncomputable def div64 : Dbl → Dbl → Dbl
  | fin x, fin y => if y = 0 then signedInf x else ofReal (x / y)
  | fin _, pinf => fin 0
  | fin _, ninf => fin 0
  | pinf, fin y => if y < 0 then ninf else pinf
  | ninf, fin y => if y < 0 then pinf else ninf
  | _, _ => nan

/-- C library `log` in binary64. -/
noncomputable def log64 : Dbl → Dbl
  | fin x => if 0 < x then ofReal (Real.log x) else if x = 0 then ninf else nan
  | pinf => pinf
  | _ => nan

/-- C library `log1p` in binary64: `log(1 + x)` without forming `1 + x` in binary64. -/
noncomputable def log1p64 : Dbl → Dbl
  | fin x => if -1 < x then ofReal (Real.log (1 + x)) else if x = -1 then ninf else nan
  | pinf => pinf
  | _ => nan

/-- C library `exp` in binary64: underflows to `0`, overflows to `+inf`. -/
noncomputable def exp64 : Dbl → Dbl
  | fin x => ofReal (Real.exp x)
  | pinf => pinf
  | ninf => fin 0
  | nan => nan

/-- C library `expm1` in binary64. -/
noncomputable def expm1b64 : Dbl → Dbl
  | fin x => ofReal (Real.exp x - 1)
  | pinf => pinf
  | ninf => fin (-1)
  | nan => nan

end Dbl

/-! ## `R::qexp` and `src/rand.cpp` in binary64 -/

/-- R macro `R_Log1_Exp(x)`: `x > -M_LN2 ? log(-expm1(x)) : log1p(-exp(x))`. -/
noncomputable def R_Log1_Exp64 (x : Dbl) : Dbl :=
  if Dbl.lt (Dbl.neg (Dbl.ofReal (Real.log 2))) x then Dbl.log64 (Dbl.neg (Dbl.expm1b64 x))
  else Dbl.log1p64 (Dbl.neg (Dbl.exp64 x))

/-- R macro `R_D_LExp(x)`: `log_p ? R_Log1_Exp(x) : log1p(-x)`. -/
noncomputable def R_D_LExp64 (x : Dbl) (log_p : Bool) : Dbl :=
  if log_p then R_Log1_Exp64 x else Dbl.log1p64 (Dbl.neg x)

/-- R macro `R_D_log(p)`: `log_p ? p : log(p)`. -/
noncomputable def R_D_log64 (p : Dbl) (log_p : Bool) : Dbl :=
  if log_p then p else Dbl.log64 p

/-- R macro `R_DT_Clog(p)`: `lower_tail ? R_D_LExp(p) : R_D_log(p)`. -/
noncomputable def R_DT_Clog64 (p : Dbl) (lower_tail log_p : Bool) : Dbl :=
  if lower_tail then R_D_LExp64 p log_p else R_D_log64 p log_p

/-- R's C-level `qexp(p, scale, lower_tail, log_p)` in binary64. -/
noncomputable def qexp64 (p scale : Dbl) (lower_tail log_p : Bool) : Dbl :=
  if Dbl.isnan p ∨ Dbl.isnan scale then Dbl.add64 p scale
  else if Dbl.lt scale (fin 0) then nan
  else if (log_p = true ∧ Dbl.lt (fin 0) p) ∨
      (log_p = false ∧ (Dbl.lt p (fin 0) ∨ Dbl.lt (fin 1) p)) then nan
  else if Dbl.eq p (R_DT_0 lower_tail log_p) then fin 0
  else Dbl.mul64 (Dbl.neg scale) (R_DT_Clog64 p lower_tail log_p)

/-- `qgompertzC` of `src/rand.cpp`, lines 7-19, in binary64. -/
noncomputable def qgompertzC64 (p shape rate : Dbl) : Dbl :=
  if Dbl.eq shape (fin 0) then
    qexp64 p rate true false
  else if Dbl.lt shape (fin 0) then
    pinf
  else
    Dbl.mul64 (Dbl.div64 (fin 1) shape)
      (Dbl.log64 (Dbl.sub64 (fin 1)
        (Dbl.div64 (Dbl.mul64 shape (Dbl.log64 (Dbl.sub64 (fin 1) p))) rate)))

/-- The argument of the outer logarithm on line 16 of `src/rand.cpp`,
`1 - shape * log(1 - p)/rate`, in binary64. -/
noncomputable def outerArg64 (p shape rate : Dbl) : Dbl :=
  Dbl.sub64 (fin 1) (Dbl.div64 (Dbl.mul64 shape (Dbl.log64 (Dbl.sub64 (fin 1) p))) rate)

/-- `rgompertzC` of `src/rand.cpp`, lines 22-25, in binary64. -/
noncomputable def rgompertzC64 {σ : Type} (R : Sampler σ) (shape rate : Dbl) (s : RState σ) :
    Dbl × RState σ :=
  let r := draw R (Call.runif (fin 0) (fin 1)) s
  let u := r.1
  (qgompertzC64 u shape rate, r.2)

/-- `rsurv` of `src/rand.cpp`, lines 29-46, in binary64. -/
noncomputable def rsurv64 {σ : Type} (R : Sampler σ) (location par2 : Dbl) (dist : String)
    (s : RState σ) : Dbl × RState σ :=
  let surv : Dbl := fin 0
  if dist = "exponential" then
    let rate := Dbl.exp64 location
    draw R (Call.rexp (Dbl.div64 (fin 1) rate)) s
  else if dist = "weibull" then
    let shape := Dbl.exp64 par2
    let scale := Dbl.exp64 location
    draw R (Call.rweibull shape scale) s
  else if dist = "gompertz" then
    let shape := Dbl.exp64 par2
    let rate := Dbl.exp64 location
    rgompertzC64 R shape rate s
  else
    (surv, s)

/-! ## Auxiliary lemmas -/

/-- The `shape > 0` branch on finite arguments: whenever both logarithm arguments
are positive, the result is the finite closed form. -/
lemma qgompertzC_closed_form (p shape rate : ℝ) (hs : 0 < shape) (hr : rate ≠ 0)
    (hp : 0 < 1 - p) (harg : 0 < 1 - shape * Real.log (1 - p) / rate) :
    qgompertzC (fin p) (fin shape) (fin rate)
      = fin (1 / shape * Real.log (1 - shape * Real.log (1 - p) / rate)) := by
  have hp2 : 0 < 1 + -p := by linarith
  have harg2 : 0 < 1 + -(shape * Real.log (1 + -p) / rate) := by
    have : (1 : ℝ) + -p = 1 - p := by ring
    rw [this]; linarith
  simp [qgompertzC, Dbl.eq, Dbl.lt, Dbl.sub, Dbl.neg, Dbl.add, Dbl.log, Dbl.mul, Dbl.div,
    hs.ne', not_lt.mpr hs.le, hr, hp2, harg2]
  simp [sub_eq_add_neg]

/-- For `p` in `[0,1)`, `shape > 0` and `rate > 0` the outer logarithm argument is
at least `1`. -/
lemma one_le_outer_arg (p shape rate : ℝ) (hp0 : 0 ≤ p) (hp1 : p < 1) (hs : 0 < shape)
    (hr : 0 < rate) : 1 ≤ 1 - shape * Real.log (1 - p) / rate := by
  have hlog : Real.log (1 - p) ≤ 0 := Real.log_nonpos (by linarith) (by linarith)
  have h1 : shape * Real.log (1 - p) ≤ 0 := mul_nonpos_of_nonneg_of_nonpos hs.le hlog
  have h2 : shape * Real.log (1 - p) / rate ≤ 0 := div_nonpos_of_nonpos_of_nonneg h1 hr.le
  linarith

/-- The `shape > 0` branch on the specification's domain. -/
lemma qgompertzC_pos_shape (p shape rate : ℝ) (hp0 : 0 ≤ p) (hp1 : p < 1) (hs : 0 < shape)
    (hr : 0 < rate) :
    qgompertzC (fin p) (fin shape) (fin rate)
      = fin (1 / shape * Real.log (1 - shape * Real.log (1 - p) / rate)) :=
  qgompertzC_closed_form p shape rate hs hr.ne' (by linarith)
    (lt_of_lt_of_le one_pos (one_le_outer_arg p shape rate hp0 hp1 hs hr))

/-- The `shape == 0` branch on finite arguments: `R::qexp` receives `rate` in its
scale position, so the result is `-(rate * ln(1-p))`. -/
lemma qgompertzC_zero_shape (p rate : ℝ) (hp0 : 0 ≤ p) (hp1 : p < 1) (hr : 0 ≤ rate) :
    qgompertzC (fin p) (fin 0) (fin rate) = fin (-(rate * Real.log (1 - p))) := by
  have hp2 : 0 < 1 + -p := by linarith
  by_cases h0 : p = 0
  · subst h0
    simp [qgompertzC, qexp, R_DT_0, R_D__0, Dbl.eq, Dbl.lt, Dbl.isnan, not_lt.mpr hr]
  · simp [qgompertzC, qexp, R_DT_0, R_D__0, R_DT_Clog, R_D_LExp, Dbl.log1p, Dbl.eq, Dbl.lt,
      Dbl.isnan, Dbl.neg, Dbl.add, Dbl.log, Dbl.mul, not_lt.mpr hr, not_lt.mpr hp0,
      not_lt.mpr hp1.le, h0, hp2]
    simp [sub_eq_add_neg]

/-- Round trip on the reals: the closed form inverts the Gompertz distribution
function whenever the outer logarithm argument is positive. -/
lemma gompertzCDF_closed_form (p shape rate : ℝ) (hs : shape ≠ 0) (hr : rate ≠ 0)
    (hp : 0 < 1 - p) (harg : 0 < 1 - shape * Real.log (1 - p) / rate) :
    gompertzCDF shape rate (1 / shape * Real.log (1 - shape * Real.log (1 - p) / rate)) = p := by
  unfold gompertzCDF
  have e1 : shape * (1 / shape * Real.log (1 - shape * Real.log (1 - p) / rate))
      = Real.log (1 - shape * Real.log (1 - p) / rate) := by
    field_simp
  rw [e1, Real.exp_log harg]
  have e2 : -(rate / shape) * (1 - shape * Real.log (1 - p) / rate - 1) = Real.log (1 - p) := by
    field_simp
    ring
  rw [e2, Real.exp_log hp]
  ring

/-- For `shape < 0` and `rate > 0` the Gompertz distribution function stays strictly
below `1 - exp(rate/shape)` at every finite time. -/
lemma gompertzCDF_lt_bound (shape rate t : ℝ) (hs : shape < 0) (hr : 0 < rate) :
    gompertzCDF shape rate t < 1 - Real.exp (rate / shape) := by
  unfold gompertzCDF
  have hc : 0 < -(rate / shape) := neg_pos.mpr (div_neg_of_pos_of_neg hr hs)
  have he : 0 < Real.exp (shape * t) := Real.exp_pos _
  have hlt : rate / shape < -(rate / shape) * (Real.exp (shape * t) - 1) := by nlinarith
  have := Real.exp_lt_exp.mpr hlt
  linarith

/-- For `shape < 0`, `rate > 0` and `0 ≤ p < 1 - exp(rate/shape)` the closed form is a
finite non-negative time at which the Gompertz distribution function equals `p`. -/
lemma gompertzCDF_attained (p shape rate : ℝ) (hs : shape < 0) (hr : 0 < rate) (hp0 : 0 ≤ p)
    (hp : p < 1 - Real.exp (rate / shape)) :
    ∃ t : ℝ, 0 ≤ t ∧ gompertzCDF shape rate t = p := by
  have hp1 : 0 < 1 - p := by linarith [Real.exp_pos (rate / shape)]
  have hlog0 : Real.log (1 - p) ≤ 0 := Real.log_nonpos hp1.le (by linarith)
  have hlog : rate / shape < Real.log (1 - p) := by
    rw [Real.lt_log_iff_exp_lt hp1]
    linarith
  have hsl : shape * Real.log (1 - p) < rate := by
    have := (div_lt_iff_of_neg hs).mp hlog
    linarith
  have hq : shape * Real.log (1 - p) / rate < 1 := (div_lt_one hr).mpr hsl
  have hq0 : 0 ≤ shape * Real.log (1 - p) / rate :=
    div_nonneg (mul_nonneg_of_nonpos_of_nonpos hs.le hlog0) hr.le
  have harg : 0 < 1 - shape * Real.log (1 - p) / rate := by linarith
  have hL : Real.log (1 - shape * Real.log (1 - p) / rate) ≤ 0 :=
    Real.log_nonpos harg.le (by linarith)
  refine ⟨1 / shape * Real.log (1 - shape * Real.log (1 - p) / rate), ?_,
    gompertzCDF_closed_form p shape rate hs.ne hr.ne' hp1 harg⟩
  exact mul_nonneg_of_nonpos_of_nonpos (one_div_neg.mpr hs).le hL

/-- The closed form of the `shape > 0` branch tends to the exponential quantile
`-ln(1-p)/rate` as the shape tends to `0` from above. -/
lemma closed_form_tendsto (p rate : ℝ) :
    Filter.Tendsto (fun sh : ℝ => 1 / sh * Real.log (1 - sh * Real.log (1 - p) / rate))
      (nhdsWithin 0 (Set.Ioi 0)) (nhds (-Real.log (1 - p) / rate)) := by
  have h := (Real.tendsto_mul_log_one_plus_div_atTop (-Real.log (1 - p) / rate)).comp
    (tendsto_inv_zero_atTop :
      Filter.Tendsto (fun x : ℝ => x⁻¹) (nhdsWithin 0 (Set.Ioi 0)) Filter.atTop)
  refine h.congr fun sh => ?_
  simp only [Function.comp_apply, one_div, div_inv_eq_mul]
  congr 2
  ring

/-- On the specification's domain the value of `qgompertzC`, read as a real, tends to
`-ln(1-p)/rate` as the shape tends to `0` from above. -/
lemma qgompertzC_tendsto (p rate : ℝ) (hp0 : 0 ≤ p) (hp1 : p < 1) (hr : 0 < rate) :
    Filter.Tendsto (fun sh : ℝ => Dbl.toReal (qgompertzC (fin p) (fin sh) (fin rate)))
      (nhdsWithin 0 (Set.Ioi 0)) (nhds (-Real.log (1 - p) / rate)) := by
  refine (closed_form_tendsto p rate).congr' ?_
  filter_upwards [self_mem_nhdsWithin] with sh hsh
  rw [qgompertzC_pos_shape p sh rate hp0 hp1 hsh hr]
  rfl

/-! ## Lemmas on binary64 rounding -/

lemma floor_le_roundEven (m : ℝ) : ⌊m⌋ ≤ roundEven m := by
  unfold roundEven
  split_ifs <;> omega

lemma roundEven_le_floor_add_one (m : ℝ) : roundEven m ≤ ⌊m⌋ + 1 := by
  unfold roundEven
  split_ifs <;> omega

lemma roundEven_intCast (n : ℤ) : roundEven (n : ℝ) = n := by
  unfold roundEven
  simp

lemma le_roundEven {n : ℤ} {m : ℝ} (h : (n : ℝ) ≤ m) : n ≤ roundEven m :=
  le_trans (Int.le_floor.mpr h) (floor_le_roundEven m)

lemma roundEven_le {n : ℤ} {m : ℝ} (h : m ≤ (n : ℝ)) : roundEven m ≤ n := by
  rcases eq_or_lt_of_le h with h | h
  · rw [h, roundEven_intCast]
  · have : ⌊m⌋ < n := Int.floor_lt.mpr h
    have := roundEven_le_floor_add_one m
    omega

lemma roundEven_mono {m₁ m₂ : ℝ} (h : m₁ ≤ m₂) : roundEven m₁ ≤ roundEven m₂ := by
  have hf : ⌊m₁⌋ ≤ ⌊m₂⌋ := Int.floor_mono h
  rcases eq_or_lt_of_le hf with hf | hf
  · have hfr : Int.fract m₁ ≤ Int.fract m₂ := by
      have e1 := Int.floor_add_fract m₁
      have e2 := Int.floor_add_fract m₂
      have : (⌊m₁⌋ : ℝ) = ⌊m₂⌋ := by exact_mod_cast hf
      linarith
    unfold roundEven
    rw [hf]
    split_ifs <;> first | omega | (exfalso; linarith)
  · have h1 := roundEven_le_floor_add_one m₁
    have h2 := floor_le_roundEven m₂
    omega

lemma roundEven_eq_of_lt_half {n : ℤ} {m : ℝ} (h1 : (n : ℝ) ≤ m) (h2 : m < n + 1 / 2) :
    roundEven m = n := by
  have hfl : ⌊m⌋ = n := by
    rw [Int.floor_eq_iff]
    constructor
    · exact h1
    · linarith
  have hfr : Int.fract m < 1 / 2 := by
    have e1 := Int.floor_add_fract m
    rw [hfl] at e1
    linarith
  unfold roundEven
  rw [if_pos hfr, hfl]


lemma two_zpow_pos (k : ℤ) : (0 : ℝ) < (2 : ℝ) ^ k := zpow_pos (by norm_num) k

lemma two_zpow_le {m n : ℤ} (h : m ≤ n) : (2 : ℝ) ^ m ≤ (2 : ℝ) ^ n :=
  zpow_le_zpow_right₀ (by norm_num) h

lemma two_zpow_lt {m n : ℤ} (h : m < n) : (2 : ℝ) ^ m < (2 : ℝ) ^ n :=
  zpow_lt_zpow_right₀ (by norm_num) h

lemma b64Ulp_pos (x : ℝ) : 0 < b64Ulp x := two_zpow_pos _

lemma b64Exp_ge (x : ℝ) : -1022 ≤ b64Exp x := le_max_right _ _

/-- The exponent of a positive real lying in the binade `[2^k, 2^(k+1))`, `k ≥ -1022`. -/
lemma b64Exp_eq_of_mem {x : ℝ} {k : ℤ} (hk : -1022 ≤ k) (h1 : (2 : ℝ) ^ k ≤ x)
    (h2 : x < (2 : ℝ) ^ (k + 1)) : b64Exp x = k := by
  have hx : 0 < x := lt_of_lt_of_le (two_zpow_pos k) h1
  have hlog : Int.log 2 x = k := by
    apply le_antisymm
    · have : Int.log 2 x < k + 1 := by
        rw [← Int.lt_zpow_iff_log_lt (by norm_num) hx]
        simpa using h2
      omega
    · rw [← Int.zpow_le_iff_le_log (by norm_num) hx]
      simpa using h1
  unfold b64Exp
  rw [hlog]
  exact max_eq_left hk

/-- A positive real below the smallest normal number has the subnormal exponent. -/
lemma b64Exp_eq_of_lt {x : ℝ} (hx : 0 < x) (h2 : x < (2 : ℝ) ^ (-1022 : ℤ)) :
    b64Exp x = -1022 := by
  unfold b64Exp
  apply max_eq_right
  have : Int.log 2 x < -1022 := by
    rw [← Int.lt_zpow_iff_log_lt (by norm_num) hx]
    simpa using h2
  omega

lemma b64Exp_mono {x y : ℝ} (hx : 0 < x) (h : x ≤ y) : b64Exp x ≤ b64Exp y :=
  max_le_max (Int.log_mono_right hx h) le_rfl

lemma lt_two_zpow_b64Exp_succ (x : ℝ) : x < (2 : ℝ) ^ (b64Exp x + 1) := by
  have h := Int.lt_zpow_succ_log_self (b := 2) (by norm_num) x
  have h' : x < (2 : ℝ) ^ (Int.log 2 x + 1) := by simpa using h
  exact lt_of_lt_of_le h' (two_zpow_le (by have := le_max_left (Int.log 2 x) (-1022); unfold b64Exp; omega))

lemma two_zpow_b64Exp_le {x : ℝ} (hx : 0 < x) (h : -1022 < b64Exp x) :
    (2 : ℝ) ^ (b64Exp x) ≤ x := by
  have hlog : b64Exp x = Int.log 2 x := by
    unfold b64Exp at h ⊢
    rcases max_cases (Int.log 2 x) (-1022) with ⟨h1, _⟩ | ⟨h1, _⟩
    · exact h1
    · rw [h1] at h; omega
  rw [hlog]
  have h := Int.zpow_log_le_self (b := 2) (by norm_num) hx
  simpa using h

lemma b64Ulp_mul (x : ℝ) (n : ℤ) : (2 : ℝ) ^ n * b64Ulp x = (2 : ℝ) ^ (n + b64Exp x - 52) := by
  unfold b64Ulp
  rw [← zpow_add₀ (by norm_num : (2 : ℝ) ≠ 0)]
  congr 1
  ring

lemma b64RoundNonneg_zero : b64RoundNonneg 0 = 0 := by
  unfold b64RoundNonneg
  have : roundEven ((0 : ℝ) / b64Ulp 0) = 0 := by
    rw [zero_div]
    exact_mod_cast roundEven_intCast 0
  rw [this]
  simp

lemma b64RoundNonneg_nonneg {x : ℝ} (hx : 0 ≤ x) : 0 ≤ b64RoundNonneg x := by
  unfold b64RoundNonneg
  have h : (0 : ℤ) ≤ roundEven (x / b64Ulp x) :=
    le_roundEven (by simpa using div_nonneg hx (b64Ulp_pos x).le)
  exact mul_nonneg (by exact_mod_cast h) (b64Ulp_pos x).le

/-- A lower bound by a grid point `n * ulp` is preserved by rounding. -/
lemma le_b64RoundNonneg {x : ℝ} {n : ℤ} (h : (n : ℝ) * b64Ulp x ≤ x) :
    (n : ℝ) * b64Ulp x ≤ b64RoundNonneg x := by
  unfold b64RoundNonneg
  have h' : (n : ℝ) ≤ x / b64Ulp x := (le_div_iff₀ (b64Ulp_pos x)).mpr h
  have := le_roundEven h'
  exact mul_le_mul_of_nonneg_right (by exact_mod_cast this) (b64Ulp_pos x).le

lemma b64RoundNonneg_le {x : ℝ} {n : ℤ} (h : x ≤ (n : ℝ) * b64Ulp x) :
    b64RoundNonneg x ≤ (n : ℝ) * b64Ulp x := by
  unfold b64RoundNonneg
  have h' : x / b64Ulp x ≤ (n : ℝ) := (div_le_iff₀ (b64Ulp_pos x)).mpr h
  have := roundEven_le h'
  exact mul_le_mul_of_nonneg_right (by exact_mod_cast this) (b64Ulp_pos x).le

lemma b64RoundNonneg_mono {x y : ℝ} (hx : 0 ≤ x) (h : x ≤ y) :
    b64RoundNonneg x ≤ b64RoundNonneg y := by
  rcases eq_or_lt_of_le hx with hx0 | hx0
  · rw [← hx0, b64RoundNonneg_zero]
    exact b64RoundNonneg_nonneg (le_trans hx h)
  have hy0 : 0 < y := lt_of_lt_of_le hx0 h
  have he := b64Exp_mono hx0 h
  rcases eq_or_lt_of_le he with he | he
  · have hu : b64Ulp x = b64Ulp y := by unfold b64Ulp; rw [he]
    unfold b64RoundNonneg
    rw [hu]
    have := roundEven_mono (div_le_div_of_nonneg_right h (b64Ulp_pos y).le)
    exact mul_le_mul_of_nonneg_right (by exact_mod_cast this) (b64Ulp_pos y).le
  · -- different binades: a power of two separates the two roundings
    have hxup : b64RoundNonneg x ≤ (2 : ℝ) ^ (b64Exp x + 1) := by
      have e : ((2 ^ 53 : ℤ) : ℝ) * b64Ulp x = (2 : ℝ) ^ (b64Exp x + 1) := by
        have := b64Ulp_mul x 53
        rw [show ((2 ^ 53 : ℤ) : ℝ) = (2 : ℝ) ^ (53 : ℤ) by norm_num, this]
        congr 1
        ring
      rw [← e]
      apply b64RoundNonneg_le
      rw [e]
      exact (lt_two_zpow_b64Exp_succ x).le
    have hylow : (2 : ℝ) ^ (b64Exp y) ≤ b64RoundNonneg y := by
      have e : ((2 ^ 52 : ℤ) : ℝ) * b64Ulp y = (2 : ℝ) ^ (b64Exp y) := by
        have := b64Ulp_mul y 52
        rw [show ((2 ^ 52 : ℤ) : ℝ) = (2 : ℝ) ^ (52 : ℤ) by norm_num, this]
        congr 1
        ring
      rw [← e]
      apply le_b64RoundNonneg
      rw [e]
      exact two_zpow_b64Exp_le hy0 (by have := b64Exp_ge x; omega)
    exact le_trans hxup (le_trans (two_zpow_le (by omega)) hylow)

lemma b64Round_zero : b64Round 0 = 0 := by
  unfold b64Round
  simp [b64RoundNonneg_zero]

lemma b64Round_neg (x : ℝ) : b64Round (-x) = -b64Round x := by
  unfold b64Round
  rcases lt_trichotomy x 0 with h | h | h
  · have h1 : 0 ≤ -x := by linarith
    have h2 : ¬ 0 ≤ x := by linarith
    rw [if_pos h1, if_neg h2, neg_neg]
  · subst h
    simp [b64RoundNonneg_zero]
  · have h1 : ¬ 0 ≤ -x := by linarith
    have h2 : 0 ≤ x := by linarith
    rw [if_neg h1, if_pos h2, neg_neg]

lemma b64Round_nonneg {x : ℝ} (hx : 0 ≤ x) : 0 ≤ b64Round x := by
  unfold b64Round
  rw [if_pos hx]
  exact b64RoundNonneg_nonneg hx

lemma b64Round_nonpos {x : ℝ} (hx : x ≤ 0) : b64Round x ≤ 0 := by
  have := b64Round_nonneg (neg_nonneg.mpr hx)
  rw [b64Round_neg] at this
  linarith

lemma b64Round_mono {x y : ℝ} (h : x ≤ y) : b64Round x ≤ b64Round y := by
  rcases le_or_lt 0 x with hx | hx
  · have hy : 0 ≤ y := le_trans hx h
    unfold b64Round
    rw [if_pos hx, if_pos hy]
    exact b64RoundNonneg_mono hx h
  · rcases le_or_lt 0 y with hy | hy
    · exact le_trans (b64Round_nonpos hx.le) (b64Round_nonneg hy)
    · have h1 : b64Round (-y) ≤ b64Round (-x) := by
        unfold b64Round
        rw [if_pos (by linarith : (0 : ℝ) ≤ -y), if_pos (by linarith : (0 : ℝ) ≤ -x)]
        exact b64RoundNonneg_mono (by linarith) (by linarith)
      rw [b64Round_neg, b64Round_neg] at h1
      linarith


lemma two_zpow_mul (a b : ℤ) : (2 : ℝ) ^ a * (2 : ℝ) ^ b = (2 : ℝ) ^ (a + b) :=
  (zpow_add₀ (by norm_num : (2 : ℝ) ≠ 0) a b).symm

lemma b64RoundNonneg_two_zpow {k : ℤ} (hk : -1074 ≤ k) :
    b64RoundNonneg ((2 : ℝ) ^ k) = (2 : ℝ) ^ k := by
  have hlog : Int.log 2 ((2 : ℝ) ^ k) = k := by
    have := Int.log_zpow (R := ℝ) (b := 2) (by norm_num) k
    simpa using this
  have he : b64Exp ((2 : ℝ) ^ k) = max k (-1022) := by
    unfold b64Exp
    rw [hlog]
  obtain ⟨n, hn⟩ : ∃ n : ℕ, (n : ℤ) = k - b64Exp ((2 : ℝ) ^ k) + 52 := by
    have : 0 ≤ k - b64Exp ((2 : ℝ) ^ k) + 52 := by
      rw [he]
      rcases max_cases k (-1022) with ⟨h, _⟩ | ⟨h, _⟩ <;> omega
    exact ⟨_, Int.toNat_of_nonneg this⟩
  have hdiv : (2 : ℝ) ^ k / b64Ulp ((2 : ℝ) ^ k) = (((2 : ℤ) ^ n : ℤ) : ℝ) := by
    unfold b64Ulp
    rw [← zpow_sub₀ (by norm_num : (2 : ℝ) ≠ 0)]
    push_cast
    rw [← zpow_natCast, hn]
    congr 1
    ring
  unfold b64RoundNonneg
  rw [hdiv, roundEven_intCast, ← hdiv]
  exact div_mul_cancel₀ _ (b64Ulp_pos _).ne'

lemma b64Round_two_zpow {k : ℤ} (hk : -1074 ≤ k) : b64Round ((2 : ℝ) ^ k) = (2 : ℝ) ^ k := by
  unfold b64Round
  rw [if_pos (two_zpow_pos k).le]
  exact b64RoundNonneg_two_zpow hk

/-- Absorption: adding less than half an ulp of `1` to `1` gives `1`. -/
lemma b64Round_one_add {y : ℝ} (h0 : 0 ≤ y) (h1 : y < (2 : ℝ) ^ (-53 : ℤ)) :
    b64Round (1 + y) = 1 := by
  have hsmall : (2 : ℝ) ^ (-53 : ℤ) < 1 := by norm_num
  have he : b64Exp (1 + y) = 0 :=
    b64Exp_eq_of_mem (by norm_num) (by norm_num; linarith) (by norm_num; linarith)
  have hu : b64Ulp (1 + y) = (2 : ℝ) ^ (-52 : ℤ) := by
    unfold b64Ulp
    rw [he]
    norm_num
  have hupos : (0 : ℝ) < (2 : ℝ) ^ (-52 : ℤ) := two_zpow_pos _
  have h52 : ((2 ^ 52 : ℤ) : ℝ) * (2 : ℝ) ^ (-52 : ℤ) = 1 := by norm_num
  have h53 : (2 : ℝ) ^ (-53 : ℤ) = 1 / 2 * (2 : ℝ) ^ (-52 : ℤ) := by norm_num
  have hr : roundEven ((1 + y) / b64Ulp (1 + y)) = 2 ^ 52 := by
    rw [hu]
    apply roundEven_eq_of_lt_half
    · rw [le_div_iff₀ hupos]
      linarith
    · rw [div_lt_iff₀ hupos]
      rw [h53] at h1
      nlinarith
  unfold b64Round
  rw [if_pos (by linarith)]
  unfold b64RoundNonneg
  rw [hr, hu]
  exact h52

/-- Underflow: a non-negative real below half the smallest subnormal rounds to `0`. -/
lemma b64Round_tiny {x : ℝ} (h0 : 0 ≤ x) (h1 : x < (2 : ℝ) ^ (-1075 : ℤ)) :
    b64Round x = 0 := by
  rcases eq_or_lt_of_le h0 with h | h
  · rw [← h]
    exact b64Round_zero
  have hlt : x < (2 : ℝ) ^ (-1022 : ℤ) :=
    lt_of_lt_of_le h1 (two_zpow_le (by norm_num))
  have he : b64Exp x = -1022 := b64Exp_eq_of_lt h hlt
  have hu : b64Ulp x = (2 : ℝ) ^ (-1074 : ℤ) := by
    unfold b64Ulp
    rw [he]
    norm_num
  have hupos : (0 : ℝ) < (2 : ℝ) ^ (-1074 : ℤ) := two_zpow_pos _
  have hsplit : (2 : ℝ) ^ (-1075 : ℤ) = 1 / 2 * (2 : ℝ) ^ (-1074 : ℤ) := by
    have := two_zpow_mul (-1) (-1074)
    rw [show (-1 : ℤ) + -1074 = -1075 by norm_num] at this
    rw [← this]
    norm_num
  have hr : roundEven (x / b64Ulp x) = 0 := by
    rw [hu]
    apply roundEven_eq_of_lt_half
    · simpa using div_nonneg h0 hupos.le
    · rw [div_lt_iff₀ hupos]
      rw [hsplit] at h1
      simpa using h1
  unfold b64Round
  rw [if_pos h0]
  unfold b64RoundNonneg
  rw [hr]
  simp

/-! ## Lemmas on `Dbl.ofReal` and the order of doubles -/

lemma ofReal_eq_fin {x : ℝ} (h1 : -(2 : ℝ) ^ (1024 : ℤ) < b64Round x)
    (h2 : b64Round x < (2 : ℝ) ^ (1024 : ℤ)) : Dbl.ofReal x = fin (b64Round x) := by
  unfold Dbl.ofReal
  rw [if_neg (not_le.mpr h2), if_neg (not_le.mpr h1)]

lemma ofReal_zero : Dbl.ofReal 0 = fin 0 := by
  have h := two_zpow_pos 1024
  have := ofReal_eq_fin (x := 0) (by rw [b64Round_zero]; linarith) (by rw [b64Round_zero]; linarith)
  rw [this, b64Round_zero]

lemma ofReal_two_zpow {k : ℤ} (hk : -1074 ≤ k) (hk2 : k ≤ 1023) :
    Dbl.ofReal ((2 : ℝ) ^ k) = fin ((2 : ℝ) ^ k) := by
  have hp := two_zpow_pos k
  have hlt : (2 : ℝ) ^ k < (2 : ℝ) ^ (1024 : ℤ) := two_zpow_lt (by omega)
  have := ofReal_eq_fin (x := (2 : ℝ) ^ k) (by rw [b64Round_two_zpow hk]; linarith)
    (by rw [b64Round_two_zpow hk]; exact hlt)
  rw [this, b64Round_two_zpow hk]

lemma ofReal_one : Dbl.ofReal 1 = fin 1 := by
  have := ofReal_two_zpow (k := 0) (by norm_num) (by norm_num)
  simpa using this

/-- Overflow: a real of magnitude at least `2^1024` becomes `+inf`. -/
lemma ofReal_overflow {x : ℝ} (h : (2 : ℝ) ^ (1024 : ℤ) ≤ x) : Dbl.ofReal x = pinf := by
  have : (2 : ℝ) ^ (1024 : ℤ) ≤ b64Round x := by
    have := b64Round_mono h
    rwa [b64Round_two_zpow (by norm_num)] at this
  unfold Dbl.ofReal
  rw [if_pos this]

lemma ofReal_neg (x : ℝ) : Dbl.ofReal (-x) = Dbl.neg (Dbl.ofReal x) := by
  have hpos := two_zpow_pos 1024
  unfold Dbl.ofReal
  rw [b64Round_neg]
  split_ifs <;> simp [Dbl.neg] <;> linarith

lemma ofReal_mono {x y : ℝ} (h : x ≤ y) : Dbl.le (Dbl.ofReal x) (Dbl.ofReal y) := by
  have hpos := two_zpow_pos 1024
  have hr := b64Round_mono h
  unfold Dbl.ofReal
  split_ifs <;> simp [Dbl.le] <;> linarith

/-- Bounds by powers of two in range pass through rounding. -/
lemma ofReal_of_mem {x : ℝ} {j k : ℤ} (hj : -1074 ≤ j) (hk : k ≤ 1023)
    (h1 : (2 : ℝ) ^ j ≤ x) (h2 : x ≤ (2 : ℝ) ^ k) :
    ∃ r : ℝ, Dbl.ofReal x = fin r ∧ (2 : ℝ) ^ j ≤ r ∧ r ≤ (2 : ℝ) ^ k := by
  have hjk : j ≤ k := by
    by_contra hc
    have := two_zpow_lt (not_le.mp hc)
    linarith
  have hlo : (2 : ℝ) ^ j ≤ b64Round x := by
    have := b64Round_mono h1
    rwa [b64Round_two_zpow hj] at this
  have hhi : b64Round x ≤ (2 : ℝ) ^ k := by
    have := b64Round_mono h2
    rwa [b64Round_two_zpow (by omega)] at this
  have hlt : (2 : ℝ) ^ k < (2 : ℝ) ^ (1024 : ℤ) := two_zpow_lt (by omega)
  have hp := two_zpow_pos j
  have hp2 := two_zpow_pos 1024
  exact ⟨_, ofReal_eq_fin (by linarith) (by linarith), hlo, hhi⟩

lemma ninf_le_ofReal (x : ℝ) : Dbl.le ninf (Dbl.ofReal x) := by
  unfold Dbl.ofReal
  split_ifs <;> simp [Dbl.le]

lemma ofReal_le_pinf (x : ℝ) : Dbl.le (Dbl.ofReal x) pinf := by
  unfold Dbl.ofReal
  split_ifs <;> simp [Dbl.le]

lemma dbl_lt_of_lt_of_le {a b c : Dbl} (h1 : Dbl.lt a b) (h2 : Dbl.le b c) : Dbl.lt a c := by
  cases a <;> cases b <;> cases c <;> simp [Dbl.lt, Dbl.le] at h1 h2 ⊢
  linarith

/-! ## Monotonicity of the binary64 operations -/

/-- Comparisons between infinities that hold reduce to `True`. -/
lemma dbl_le_pinf_pinf : Dbl.le pinf pinf := by simp [Dbl.le]

lemma sub64_one_anti {a b : Dbl} (h : Dbl.le a b) :
    Dbl.le (Dbl.sub64 (fin 1) b) (Dbl.sub64 (fin 1) a) := by
  cases a <;> cases b <;> simp only [Dbl.le] at h <;>
    simp only [Dbl.sub64, Dbl.add64, Dbl.neg] <;>
    first
      | exact ofReal_mono (by linarith)
      | exact ninf_le_ofReal _
      | exact ofReal_le_pinf _
      | exact dbl_le_pinf_pinf

lemma log64_mono {a b : Dbl} (ha : Dbl.lt (fin 0) a) (h : Dbl.le a b) :
    Dbl.le (Dbl.log64 a) (Dbl.log64 b) := by
  cases a <;> cases b <;> simp only [Dbl.le] at h <;> simp only [Dbl.lt] at ha <;>
    simp only [Dbl.log64]
  · rename_i x y
    rw [if_pos ha, if_pos (lt_of_lt_of_le ha h)]
    exact ofReal_mono (Real.log_le_log ha h)
  · rw [if_pos ha]
    exact ofReal_le_pinf _
  · exact dbl_le_pinf_pinf

lemma mul64_mono_left {s : ℝ} (hs : 0 < s) {a b : Dbl} (h : Dbl.le a b) :
    Dbl.le (Dbl.mul64 (fin s) a) (Dbl.mul64 (fin s) b) := by
  have e1 : Dbl.signedInf s = pinf := by simp [Dbl.signedInf, hs]
  have e2 : Dbl.signedInf (-s) = ninf := by simp [Dbl.signedInf, hs, not_lt.mpr hs.le]
  cases a <;> cases b <;> simp only [Dbl.le] at h <;>
    simp only [Dbl.mul64, e1, e2] <;>
    first
      | exact ofReal_mono (mul_le_mul_of_nonneg_left h hs.le)
      | exact ninf_le_ofReal _
      | exact ofReal_le_pinf _
      | exact dbl_le_pinf_pinf

lemma div64_mono_left {r : ℝ} (hr : 0 < r) {a b : Dbl} (h : Dbl.le a b) :
    Dbl.le (Dbl.div64 a (fin r)) (Dbl.div64 b (fin r)) := by
  cases a <;> cases b <;> simp only [Dbl.le] at h <;>
    simp only [Dbl.div64, if_neg hr.ne', if_neg (not_lt.mpr hr.le)] <;>
    first
      | exact ofReal_mono (div_le_div_of_nonneg_right h hr.le)
      | exact ninf_le_ofReal _
      | exact ofReal_le_pinf _
      | exact dbl_le_pinf_pinf

lemma div64_anti_right {a : Dbl} (ha : Dbl.le a (fin 0)) {r1 r2 : ℝ} (hr1 : 0 < r1)
    (h : r1 ≤ r2) : Dbl.le (Dbl.div64 a (fin r1)) (Dbl.div64 a (fin r2)) := by
  have hr2 : 0 < r2 := lt_of_lt_of_le hr1 h
  cases a <;> simp only [Dbl.le] at ha <;>
    simp only [Dbl.div64, if_neg hr1.ne', if_neg hr2.ne', if_neg (not_lt.mpr hr1.le),
      if_neg (not_lt.mpr hr2.le)]
  · rename_i x
    apply ofReal_mono
    have := div_le_div_of_nonneg_left (neg_nonneg.mpr ha) hr1 h
    rw [neg_div, neg_div] at this
    linarith
  · simp [Dbl.le]

lemma sub64_one_zero : Dbl.sub64 (fin 1) (fin 0) = fin 1 := by
  simp [Dbl.sub64, Dbl.add64, Dbl.neg, ofReal_one]

lemma log64_one : Dbl.log64 (fin 1) = fin 0 := by
  simp [Dbl.log64, ofReal_zero]

lemma mul64_zero (s : ℝ) : Dbl.mul64 (fin s) (fin 0) = fin 0 := by
  simp [Dbl.mul64, ofReal_zero]

lemma div64_zero {r : ℝ} (hr : r ≠ 0) : Dbl.div64 (fin 0) (fin r) = fin 0 := by
  simp [Dbl.div64, hr, ofReal_zero]

/-! ## The `shape > 0` branch in binary64 -/

lemma qgompertzC64_pos (p rate : Dbl) {s : ℝ} (hs : 0 < s) :
    qgompertzC64 p (fin s) rate
      = Dbl.mul64 (Dbl.div64 (fin 1) (fin s)) (Dbl.log64 (outerArg64 p (fin s) rate)) := by
  simp [qgompertzC64, outerArg64, Dbl.eq, Dbl.lt, hs.ne', not_lt.mpr hs.le]

/-- Every double `p` in `[0,1)` satisfies `p ≤ 1 - 2^-53`; then `1 - p` is computed as a
positive number, at most `1`. -/
lemma inner_arg_bounds {p : ℝ} (hp0 : 0 ≤ p) (hp1 : p ≤ 1 - (2 : ℝ) ^ (-53 : ℤ)) :
    Dbl.lt (fin 0) (Dbl.sub64 (fin 1) (fin p)) ∧ Dbl.le (Dbl.sub64 (fin 1) (fin p)) (fin 1) := by
  constructor
  · have h : Dbl.le (fin p) (fin (1 - (2 : ℝ) ^ (-53 : ℤ))) := by simpa [Dbl.le] using hp1
    have h2 := sub64_one_anti h
    have e : Dbl.sub64 (fin 1) (fin (1 - (2 : ℝ) ^ (-53 : ℤ))) = fin ((2 : ℝ) ^ (-53 : ℤ)) := by
      have := ofReal_two_zpow (k := -53) (by norm_num) (by norm_num)
      simp only [Dbl.sub64, Dbl.add64, Dbl.neg]
      rw [show (1 : ℝ) + -(1 - (2 : ℝ) ^ (-53 : ℤ)) = (2 : ℝ) ^ (-53 : ℤ) by ring]
      exact this
    rw [e] at h2
    exact dbl_lt_of_lt_of_le (by simpa [Dbl.lt] using two_zpow_pos (-53)) h2
  · have h : Dbl.le (fin 0) (fin p) := by simpa [Dbl.le] using hp0
    have h2 := sub64_one_anti h
    rwa [sub64_one_zero] at h2

lemma inner_log_nonpos {p : ℝ} (hp0 : 0 ≤ p) (hp1 : p ≤ 1 - (2 : ℝ) ^ (-53 : ℤ)) :
    Dbl.le (Dbl.log64 (Dbl.sub64 (fin 1) (fin p))) (fin 0) := by
  have h := inner_arg_bounds hp0 hp1
  have := log64_mono h.1 h.2
  rwa [log64_one] at this

lemma scaled_log_nonpos {p s : ℝ} (hp0 : 0 ≤ p) (hp1 : p ≤ 1 - (2 : ℝ) ^ (-53 : ℤ))
    (hs : 0 < s) :
    Dbl.le (Dbl.mul64 (fin s) (Dbl.log64 (Dbl.sub64 (fin 1) (fin p)))) (fin 0) := by
  have := mul64_mono_left hs (inner_log_nonpos hp0 hp1)
  rwa [mul64_zero] at this

/-- The argument of the outer logarithm is at least `1` (possibly `+inf`). -/
lemma one_le_outerArg64 {p s r : ℝ} (hp0 : 0 ≤ p) (hp1 : p ≤ 1 - (2 : ℝ) ^ (-53 : ℤ))
    (hs : 0 < s) (hr : 0 < r) : Dbl.le (fin 1) (outerArg64 (fin p) (fin s) (fin r)) := by
  have h4 := div64_mono_left hr (scaled_log_nonpos hp0 hp1 hs)
  rw [div64_zero hr.ne'] at h4
  have h5 := sub64_one_anti h4
  rwa [sub64_one_zero] at h5

lemma outer_log_nonneg {p s r : ℝ} (hp0 : 0 ≤ p) (hp1 : p ≤ 1 - (2 : ℝ) ^ (-53 : ℤ))
    (hs : 0 < s) (hr : 0 < r) :
    Dbl.le (fin 0) (Dbl.log64 (outerArg64 (fin p) (fin s) (fin r))) := by
  have := log64_mono (by simp [Dbl.lt]) (one_le_outerArg64 hp0 hp1 hs hr)
  rwa [log64_one] at this

/-- The reciprocal of a normal positive double is a positive finite double. -/
lemma recip_finite {s : ℝ} (hs1 : (2 : ℝ) ^ (-1022 : ℤ) ≤ s) (hs2 : s ≤ (2 : ℝ) ^ (1024 : ℤ)) :
    ∃ g : ℝ, Dbl.div64 (fin 1) (fin s) = fin g ∧ 0 < g := by
  have hs : 0 < s := lt_of_lt_of_le (two_zpow_pos _) hs1
  have h1 : (2 : ℝ) ^ (-1024 : ℤ) ≤ 1 / s := by
    rw [le_div_iff₀ hs]
    calc (2 : ℝ) ^ (-1024 : ℤ) * s ≤ (2 : ℝ) ^ (-1024 : ℤ) * (2 : ℝ) ^ (1024 : ℤ) :=
          mul_le_mul_of_nonneg_left hs2 (two_zpow_pos _).le
      _ = 1 := by rw [two_zpow_mul]; norm_num
  have h2 : 1 / s ≤ (2 : ℝ) ^ (1022 : ℤ) := by
    rw [div_le_iff₀ hs]
    calc (1 : ℝ) = (2 : ℝ) ^ (1022 : ℤ) * (2 : ℝ) ^ (-1022 : ℤ) := by
          rw [two_zpow_mul]; norm_num
      _ ≤ (2 : ℝ) ^ (1022 : ℤ) * s := mul_le_mul_of_nonneg_left hs1 (two_zpow_pos _).le
  obtain ⟨g, hg, hg1, -⟩ := ofReal_of_mem (by norm_num) (by norm_num) h1 h2
  refine ⟨g, ?_, lt_of_lt_of_le (two_zpow_pos _) hg1⟩
  simp [Dbl.div64, hs.ne']
  rw [← hg]
  simp

/-- On normal shapes the result is non-negative (possibly `+inf`), never NaN. -/
lemma qgompertzC64_nonneg {p s r : ℝ} (hp0 : 0 ≤ p) (hp1 : p ≤ 1 - (2 : ℝ) ^ (-53 : ℤ))
    (hs1 : (2 : ℝ) ^ (-1022 : ℤ) ≤ s) (hs2 : s ≤ (2 : ℝ) ^ (1024 : ℤ)) (hr : 0 < r) :
    Dbl.le (fin 0) (qgompertzC64 (fin p) (fin s) (fin r)) := by
  have hs : 0 < s := lt_of_lt_of_le (two_zpow_pos _) hs1
  obtain ⟨g, hg, hg0⟩ := recip_finite hs1 hs2
  rw [qgompertzC64_pos _ _ hs, hg]
  have := mul64_mono_left hg0 (outer_log_nonneg hp0 hp1 hs hr)
  rwa [mul64_zero] at this

/-- On normal shapes the result is non-decreasing in `p`. -/
lemma qgompertzC64_mono_p {p1 p2 s r : ℝ} (hp0 : 0 ≤ p1) (h12 : p1 ≤ p2)
    (hp1 : p2 ≤ 1 - (2 : ℝ) ^ (-53 : ℤ))
    (hs1 : (2 : ℝ) ^ (-1022 : ℤ) ≤ s) (hs2 : s ≤ (2 : ℝ) ^ (1024 : ℤ)) (hr : 0 < r) :
    Dbl.le (qgompertzC64 (fin p1) (fin s) (fin r)) (qgompertzC64 (fin p2) (fin s) (fin r)) := by
  have hs : 0 < s := lt_of_lt_of_le (two_zpow_pos _) hs1
  obtain ⟨g, hg, hg0⟩ := recip_finite hs1 hs2
  rw [qgompertzC64_pos _ _ hs, qgompertzC64_pos _ _ hs, hg]
  have h1 : Dbl.le (Dbl.sub64 (fin 1) (fin p2)) (Dbl.sub64 (fin 1) (fin p1)) :=
    sub64_one_anti (by simpa [Dbl.le] using h12)
  have h2 := log64_mono (inner_arg_bounds (le_trans hp0 h12) hp1).1 h1
  have h3 := mul64_mono_left hs h2
  have h4 := div64_mono_left hr h3
  have h5 : Dbl.le (outerArg64 (fin p1) (fin s) (fin r)) (outerArg64 (fin p2) (fin s) (fin r)) :=
    sub64_one_anti h4
  have hpos : Dbl.lt (fin 0) (outerArg64 (fin p1) (fin s) (fin r)) :=
    dbl_lt_of_lt_of_le (by simp [Dbl.lt]) (one_le_outerArg64 hp0 (le_trans h12 hp1) hs hr)
  exact mul64_mono_left hg0 (log64_mono hpos h5)

/-- On normal shapes the result is non-increasing in the rate. -/
lemma qgompertzC64_anti_rate {p s r1 r2 : ℝ} (hp0 : 0 ≤ p) (hp1 : p ≤ 1 - (2 : ℝ) ^ (-53 : ℤ))
    (hs1 : (2 : ℝ) ^ (-1022 : ℤ) ≤ s) (hs2 : s ≤ (2 : ℝ) ^ (1024 : ℤ)) (hr1 : 0 < r1)
    (h12 : r1 ≤ r2) :
    Dbl.le (qgompertzC64 (fin p) (fin s) (fin r2)) (qgompertzC64 (fin p) (fin s) (fin r1)) := by
  have hs : 0 < s := lt_of_lt_of_le (two_zpow_pos _) hs1
  have hr2 : 0 < r2 := lt_of_lt_of_le hr1 h12
  obtain ⟨g, hg, hg0⟩ := recip_finite hs1 hs2
  rw [qgompertzC64_pos _ _ hs, qgompertzC64_pos _ _ hs, hg]
  have h4 := div64_anti_right (scaled_log_nonpos hp0 hp1 hs) hr1 h12
  have h5 : Dbl.le (outerArg64 (fin p) (fin s) (fin r2)) (outerArg64 (fin p) (fin s) (fin r1)) :=
    sub64_one_anti h4
  have hpos : Dbl.lt (fin 0) (outerArg64 (fin p) (fin s) (fin r2)) :=
    dbl_lt_of_lt_of_le (by simp [Dbl.lt]) (one_le_outerArg64 hp0 hp1 hs hr2)
  exact mul64_mono_left hg0 (log64_mono hpos h5)

/-! ## Range of the binary64 exponential and logarithm -/

lemma two_zpow_eq_exp (k : ℤ) : (2 : ℝ) ^ k = Real.exp (Real.log 2 * k) := by
  rw [← Real.rpow_intCast, Real.rpow_def_of_pos (by norm_num)]

lemma exp_le_two_zpow {x : ℝ} {k : ℤ} (h : x ≤ Real.log 2 * k) : Real.exp x ≤ (2 : ℝ) ^ k := by
  rw [two_zpow_eq_exp]
  exact Real.exp_le_exp.mpr h

lemma two_zpow_le_exp {x : ℝ} {k : ℤ} (h : Real.log 2 * k ≤ x) : (2 : ℝ) ^ k ≤ Real.exp x := by
  rw [two_zpow_eq_exp]
  exact Real.exp_le_exp.mpr h

/-- Bounds `-2^k ≤ x ≤ 0` pass through rounding. -/
lemma ofReal_of_mem_neg {x : ℝ} {k : ℤ} (hk : -1074 ≤ k) (hk2 : k ≤ 1023)
    (h1 : -(2 : ℝ) ^ k ≤ x) (h2 : x ≤ 0) :
    ∃ r : ℝ, Dbl.ofReal x = fin r ∧ -(2 : ℝ) ^ k ≤ r ∧ r ≤ 0 := by
  have hlo : -(2 : ℝ) ^ k ≤ b64Round x := by
    have := b64Round_mono h1
    rwa [b64Round_neg, b64Round_two_zpow hk] at this
  have hhi : b64Round x ≤ 0 := b64Round_nonpos h2
  have hlt : (2 : ℝ) ^ k < (2 : ℝ) ^ (1024 : ℤ) := two_zpow_lt (by omega)
  have hp2 := two_zpow_pos 1024
  exact ⟨_, ofReal_eq_fin (by linarith) (by linarith), hlo, hhi⟩

/-- For `-700 ≤ x ≤ 700` the binary64 exponential is a normal positive double. -/
lemma exp64_normal {x : ℝ} (h1 : -700 ≤ x) (h2 : x ≤ 700) :
    ∃ σ : ℝ, Dbl.exp64 (fin x) = fin σ ∧ (2 : ℝ) ^ (-1022 : ℤ) ≤ σ ∧ σ ≤ (2 : ℝ) ^ (1022 : ℤ) := by
  have hl := Real.log_two_gt_d9
  have hlo : (2 : ℝ) ^ (-1022 : ℤ) ≤ Real.exp x :=
    two_zpow_le_exp (by push_cast; linarith)
  have hhi : Real.exp x ≤ (2 : ℝ) ^ (1022 : ℤ) :=
    exp_le_two_zpow (by push_cast; linarith)
  exact ofReal_of_mem (by norm_num) (by norm_num) hlo hhi

/-- The binary64 exponential underflows to `0` from `-746` downwards. -/
lemma exp64_underflow {x : ℝ} (h : x ≤ -746) : Dbl.exp64 (fin x) = fin 0 := by
  have hl := Real.log_two_lt_d9
  have h1 : Real.exp x ≤ (2 : ℝ) ^ (-1076 : ℤ) := exp_le_two_zpow (by push_cast; linarith)
  have h2 : Real.exp x < (2 : ℝ) ^ (-1075 : ℤ) := lt_of_le_of_lt h1 (two_zpow_lt (by norm_num))
  have h3 := b64Round_tiny (Real.exp_pos x).le h2
  have hp := two_zpow_pos 1024
  have := ofReal_eq_fin (x := Real.exp x) (by rw [h3]; linarith) (by rw [h3]; linarith)
  simp only [Dbl.exp64]
  rw [this, h3]

lemma exp64_zero : Dbl.exp64 (fin 0) = fin 1 := by
  simp [Dbl.exp64, ofReal_one]

lemma exp64_mono {x y : ℝ} (h : x ≤ y) : Dbl.le (Dbl.exp64 (fin x)) (Dbl.exp64 (fin y)) := by
  simp only [Dbl.exp64]
  exact ofReal_mono (Real.exp_le_exp.mpr h)

/-- The binary64 value of `log(1/2)` is `-L` with `1/2 ≤ L ≤ 1`. -/
lemma ofReal_log_half :
    ∃ L : ℝ, Dbl.ofReal (Real.log (1 / 2)) = fin (-L) ∧ 1 / 2 ≤ L ∧ L ≤ 1 := by
  have h1 := Real.log_two_gt_d9
  have h2 := Real.log_two_lt_d9
  obtain ⟨L, hL, hL1, hL2⟩ := ofReal_of_mem (x := Real.log 2) (j := -1) (k := 0)
    (by norm_num) (by norm_num) (by norm_num; linarith) (by norm_num; linarith)
  refine ⟨L, ?_, by norm_num at hL1; linarith, by norm_num at hL2; linarith⟩
  have : Real.log (1 / 2) = -Real.log 2 := by
    rw [one_div, Real.log_inv]
  rw [this, ofReal_neg, hL]
  rfl

lemma outerArg64_at_zero (s : ℝ) {r : ℝ} (hr : r ≠ 0) :
    outerArg64 (fin 0) (fin s) (fin r) = fin 1 := by
  unfold outerArg64
  rw [sub64_one_zero, log64_one, mul64_zero, div64_zero hr, sub64_one_zero]

lemma ofReal_nonneg_cases {x : ℝ} (hx : 0 ≤ x) :
    Dbl.ofReal x = pinf ∨ ∃ g : ℝ, Dbl.ofReal x = fin g := by
  have h0 := b64Round_nonneg hx
  have hp := two_zpow_pos 1024
  unfold Dbl.ofReal
  split_ifs with h1 h2
  · exact Or.inl rfl
  · exfalso; linarith
  · exact Or.inr ⟨_, rfl⟩

/-- At `p = 0` the `shape > 0` branch gives `0`, or NaN when `1/shape` overflows. -/
lemma qgompertzC64_at_zero {s r : ℝ} (hs : 0 < s) (hr : 0 < r) :
    qgompertzC64 (fin 0) (fin s) (fin r)
      = if Dbl.div64 (fin 1) (fin s) = pinf then nan else fin 0 := by
  rw [qgompertzC64_pos _ _ hs, outerArg64_at_zero s hr.ne', log64_one]
  have hd : Dbl.div64 (fin 1) (fin s) = Dbl.ofReal (1 / s) := by
    simp [Dbl.div64, hs.ne']
  rw [hd]
  rcases ofReal_nonneg_cases (x := 1 / s) (by positivity) with h | ⟨g, h⟩
  · rw [h, if_pos rfl]
    simp [Dbl.mul64, Dbl.signedInf]
  · rw [h, mul64_zero, if_neg (by simp)]

/-- The reciprocal of the smallest subnormal double overflows. -/
lemma recip_smallest_subnormal : Dbl.div64 (fin 1) (fin ((2 : ℝ) ^ (-1074 : ℤ))) = pinf := by
  have hne : (2 : ℝ) ^ (-1074 : ℤ) ≠ 0 := (two_zpow_pos _).ne'
  have e : 1 / (2 : ℝ) ^ (-1074 : ℤ) = (2 : ℝ) ^ (1074 : ℤ) := by
    rw [one_div, ← zpow_neg]
    norm_num
  simp only [Dbl.div64, if_neg hne]
  rw [e]
  exact ofReal_overflow (two_zpow_le (by norm_num))

/-- At `p = 0` and the smallest subnormal shape the result is NaN. -/
lemma qgompertzC64_nan {r : ℝ} (hr : 0 < r) :
    qgompertzC64 (fin 0) (fin ((2 : ℝ) ^ (-1074 : ℤ))) (fin r) = nan := by
  rw [qgompertzC64_at_zero (two_zpow_pos _) hr, if_pos recip_smallest_subnormal]

/-- The reciprocal of a positive number not above `2^-1024` overflows. -/
lemma recip_overflow {s : ℝ} (hs : 0 < s) (hs2 : s ≤ (2 : ℝ) ^ (-1024 : ℤ)) :
    Dbl.div64 (fin 1) (fin s) = pinf := by
  have h : (2 : ℝ) ^ (1024 : ℤ) ≤ 1 / s := by
    rw [le_div_iff₀ hs]
    calc (2 : ℝ) ^ (1024 : ℤ) * s ≤ (2 : ℝ) ^ (1024 : ℤ) * (2 : ℝ) ^ (-1024 : ℤ) :=
          mul_le_mul_of_nonneg_left hs2 (two_zpow_pos _).le
      _ = 1 := by rw [two_zpow_mul]; norm_num
  simp only [Dbl.div64, if_neg hs.ne']
  exact ofReal_overflow h

/-- Absorption: when `64 * shape / rate` is below `2^-54`, the argument of the outer
logarithm is computed as exactly `1`, whatever `p` is. -/
lemma outerArg64_absorbed {p s r : ℝ} {a b : ℤ} (hp0 : 0 ≤ p)
    (hp1 : p ≤ 1 - (2 : ℝ) ^ (-53 : ℤ)) (hs : 0 < s)
    (hs2 : s ≤ (2 : ℝ) ^ a) (ha0 : -1080 ≤ a) (ha : a ≤ 1017) (hr : (2 : ℝ) ^ b ≤ r)
    (hab : a + 6 - b ≤ -54) (hab2 : -1074 ≤ a + 6 - b) :
    outerArg64 (fin p) (fin s) (fin r) = fin 1 := by
  have hr0 : 0 < r := lt_of_lt_of_le (two_zpow_pos _) hr
  -- 1 - p
  obtain ⟨x1, h1, x1lo, x1hi⟩ := ofReal_of_mem (x := 1 + -p) (j := -53) (k := 0)
    (by norm_num) (by norm_num) (by linarith) (by norm_num; linarith)
  have x1pos : 0 < x1 := lt_of_lt_of_le (two_zpow_pos _) x1lo
  have e1 : Dbl.sub64 (fin 1) (fin p) = fin x1 := by
    simp only [Dbl.sub64, Dbl.add64, Dbl.neg]
    exact h1
  -- log(1 - p)
  have hlog_hi : Real.log x1 ≤ 0 := Real.log_nonpos x1pos.le (by norm_num at x1hi; exact x1hi)
  have hlog_lo : -(2 : ℝ) ^ (6 : ℤ) ≤ Real.log x1 := by
    have h := Real.log_le_log (two_zpow_pos (-53)) x1lo
    rw [Real.log_zpow] at h
    have hl := Real.log_two_lt_d9
    push_cast at h
    norm_num
    linarith
  obtain ⟨x2, h2, x2lo, x2hi⟩ := ofReal_of_mem_neg (k := 6) (by norm_num) (by norm_num)
    hlog_lo hlog_hi
  have e2 : Dbl.log64 (fin x1) = fin x2 := by
    simp only [Dbl.log64, if_pos x1pos]
    exact h2
  -- shape * log(1 - p)
  have h3lo : -(2 : ℝ) ^ (a + 6) ≤ s * x2 := by
    rw [← two_zpow_mul]
    have : s * x2 ≥ (2 : ℝ) ^ a * x2 := mul_le_mul_of_nonpos_right hs2 x2hi
    have : (2 : ℝ) ^ a * x2 ≥ (2 : ℝ) ^ a * (-(2 : ℝ) ^ (6 : ℤ)) :=
      mul_le_mul_of_nonneg_left x2lo (two_zpow_pos a).le
    linarith
  obtain ⟨x3, h3, x3lo, x3hi⟩ := ofReal_of_mem_neg (k := a + 6) (by omega) (by omega)
    h3lo (mul_nonpos_of_nonneg_of_nonpos hs.le x2hi)
  have e3 : Dbl.mul64 (fin s) (fin x2) = fin x3 := by
    simp only [Dbl.mul64]
    exact h3
  -- ... / rate
  have h4lo : -(2 : ℝ) ^ (a + 6 - b) ≤ x3 / r := by
    rw [le_div_iff₀ hr0]
    have e : (2 : ℝ) ^ (a + 6 - b) * (2 : ℝ) ^ b = (2 : ℝ) ^ (a + 6) := by
      rw [two_zpow_mul]
      congr 1
      ring
    have : (2 : ℝ) ^ (a + 6 - b) * (2 : ℝ) ^ b ≤ (2 : ℝ) ^ (a + 6 - b) * r :=
      mul_le_mul_of_nonneg_left hr (two_zpow_pos _).le
    linarith
  obtain ⟨x4, h4, x4lo, x4hi⟩ := ofReal_of_mem_neg (k := a + 6 - b) hab2 (by omega)
    h4lo (div_nonpos_of_nonpos_of_nonneg x3hi hr0.le)
  have e4 : Dbl.div64 (fin x3) (fin r) = fin x4 := by
    simp only [Dbl.div64, if_neg hr0.ne']
    exact h4
  -- 1 - ...
  have hsmall : -x4 < (2 : ℝ) ^ (-53 : ℤ) := by
    have h54 := two_zpow_le hab
    have h5354 : (2 : ℝ) ^ (-54 : ℤ) < (2 : ℝ) ^ (-53 : ℤ) := two_zpow_lt (by norm_num)
    linarith
  have h5 := b64Round_one_add (y := -x4) (by linarith) hsmall
  have hp := two_zpow_pos 1024
  have hbig : (1 : ℝ) < (2 : ℝ) ^ (1024 : ℤ) := by
    have := two_zpow_lt (show (0 : ℤ) < 1024 by norm_num)
    simpa using this
  have e5 : Dbl.sub64 (fin 1) (fin x4) = fin 1 := by
    simp only [Dbl.sub64, Dbl.add64, Dbl.neg]
    rw [ofReal_eq_fin (by rw [h5]; linarith) (by rw [h5]; exact hbig), h5]
  unfold outerArg64
  rw [e1, e2, e3, e4, e5]

/-- With absorption and a shape whose reciprocal overflows the result is NaN (`inf * 0`),
whatever `p` is. -/
lemma qgompertzC64_absorbed_nan {p s r : ℝ} {a b : ℤ} (hp0 : 0 ≤ p)
    (hp1 : p ≤ 1 - (2 : ℝ) ^ (-53 : ℤ)) (hs : 0 < s) (hs1 : s ≤ (2 : ℝ) ^ (-1024 : ℤ))
    (hs2 : s ≤ (2 : ℝ) ^ a) (ha0 : -1080 ≤ a) (ha : a ≤ 1017) (hr : (2 : ℝ) ^ b ≤ r)
    (hab : a + 6 - b ≤ -54) (hab2 : -1074 ≤ a + 6 - b) :
    qgompertzC64 (fin p) (fin s) (fin r) = nan := by
  rw [qgompertzC64_pos _ _ hs, outerArg64_absorbed hp0 hp1 hs hs2 ha0 ha hr hab hab2, log64_one,
    recip_overflow hs hs1]
  simp [Dbl.mul64, Dbl.signedInf]

/-- The `shape == 0` branch at `p = 1/2` and a finite scale `c ≥ 0`: the binary64 value of
`c * L`, where `-L` is the binary64 value of `log(1/2)`. -/
lemma qgompertzC64_zero_shape_half {c : ℝ} (hc : 0 ≤ c) :
    ∃ L : ℝ, 1 / 2 ≤ L ∧ L ≤ 1 ∧
      qgompertzC64 (fin (1 / 2)) (fin 0) (fin c) = Dbl.ofReal (c * L) := by
  obtain ⟨L, hL, hL1, hL2⟩ := ofReal_log_half
  refine ⟨L, hL1, hL2, ?_⟩
  have e : Dbl.log1p64 (fin (-(1 / 2))) = fin (-L) := by
    simp only [Dbl.log1p64]
    rw [if_pos (by norm_num)]
    rw [show (1 : ℝ) + -(1 / 2) = 1 / 2 by norm_num]
    exact hL
  have hq : qgompertzC64 (fin (1 / 2)) (fin 0) (fin c)
      = Dbl.mul64 (fin (-c)) (Dbl.log1p64 (fin (-(1 / 2)))) := by
    simp [qgompertzC64, qexp64, R_DT_0, R_D__0, R_DT_Clog64, R_D_LExp64, Dbl.eq, Dbl.lt,
      Dbl.isnan, Dbl.neg, not_lt.mpr hc]
    norm_num
  rw [hq, e]
  simp only [Dbl.mul64]
  rw [show -c * -L = c * L by ring]

/-- Range of the binary64 exponential between two powers of two. -/
lemma exp64_mem {x : ℝ} {j k : ℤ} (hj : -1074 ≤ j) (hk : k ≤ 1023)
    (h1 : Real.log 2 * j ≤ x) (h2 : x ≤ Real.log 2 * k) :
    ∃ σ : ℝ, Dbl.exp64 (fin x) = fin σ ∧ (2 : ℝ) ^ j ≤ σ ∧ σ ≤ (2 : ℝ) ^ k :=
  ofReal_of_mem hj hk (two_zpow_le_exp h1) (exp_le_two_zpow h2)

/-- The `"gompertz"` branch of `rsurv64` returns `qgompertzC64` at the uniform draw. -/
lemma rsurv64_gompertz {σ : Type} (R : Sampler σ) (location par2 : Dbl) (s : RState σ) :
    (rsurv64 R location par2 "gompertz" s).1
      = qgompertzC64 (R (Call.runif (fin 0) (fin 1)) s.gen).1 (Dbl.exp64 par2)
          (Dbl.exp64 location) := by
  simp [rsurv64, rgompertzC64, draw]

lemma one_normal_lo : (2 : ℝ) ^ (-1022 : ℤ) ≤ 1 := by
  simpa using two_zpow_le (show (-1022 : ℤ) ≤ 0 by norm_num)

lemma one_normal_hi : (1 : ℝ) ≤ (2 : ℝ) ^ (1024 : ℤ) := by
  simpa using two_zpow_le (show (0 : ℤ) ≤ 1024 by norm_num)

lemma half_le_pred_one : (1 / 2 : ℝ) ≤ 1 - (2 : ℝ) ^ (-53 : ℤ) := by
  norm_num

lemma two_le_normal_hi : (4 : ℝ) ≤ (2 : ℝ) ^ (1024 : ℤ) := by
  have h2 : (2 : ℝ) ^ (2 : ℤ) = 4 := by norm_num
  have := two_zpow_le (show (2 : ℤ) ≤ 1024 by norm_num)
  rwa [h2] at this

/-! ## Rounding error -/

/-- C1 (code defect). At `p = 1/2`, `shape = 0`, `rate = 2` the code returns
`2 * ln 2`, because `R::qexp` reads its second argument as the scale; the
exponential quantile `-ln(1-p)/rate` of the claim is `ln 2 / 2`, a different number. -/
theorem C1_zero_shape_passes_rate_as_scale :
    qgompertzC (fin (1 / 2)) (fin 0) (fin 2) = fin (2 * Real.log 2) ∧
    qgompertzC (fin (1 / 2)) (fin 0) (fin 2) ≠ fin (-Real.log (1 - 1 / 2) / 2) := by
  have hlog : Real.log (1 - 1 / 2) = -Real.log 2 := by
    have : (1 : ℝ) - 1 / 2 = 2⁻¹ := by norm_num
    rw [this, Real.log_inv]
  have hpos : 0 < Real.log 2 := Real.log_pos (by norm_num)
  have hval : qgompertzC (fin (1 / 2)) (fin 0) (fin 2) = fin (2 * Real.log 2) := by
    rw [qgompertzC_zero_shape (1 / 2) 2 (by norm_num) (by norm_num) (by norm_num), hlog]
    congr 1
    ring
  refine ⟨hval, ?_⟩
  rw [hval, hlog]
  intro h
  injection h with h
  linarith

/-- C3. For `shape < 0` the function `qgompertzC` returns `+inf`, whatever `p` and
`rate` are (in particular for every `p` in `[0,1)` and every `rate > 0`). -/
theorem C3_neg_shape_returns_pinf (p rate : Dbl) (shape : ℝ) (hs : shape < 0) :
    qgompertzC p (fin shape) rate = pinf := by
  simp [qgompertzC, Dbl.eq, Dbl.lt, hs, hs.ne]

/-- Witness for C3 at `p = 1/2`, `shape = -1`, `rate = 1`. -/
theorem C3_neg_shape_returns_pinf_witness :
    (-1 : ℝ) < 0 ∧ qgompertzC (fin (1 / 2)) (fin (-1)) (fin 1) = pinf :=
  ⟨by norm_num, C3_neg_shape_returns_pinf (fin (1 / 2)) (fin 1) (-1) (by norm_num)⟩

/-- C5, refuted as stated. At the smallest subnormal shape `2^-1074` and `rate = 1` the
binary64 result is NaN for `p = 0` and for `p = 1/2` (`1/shape` overflows to `+inf`, the
outer logarithm is `0`, and `inf * 0` is NaN), and the comparison `NaN <= NaN` is false. -/
theorem C5_not_monotone_at_subnormal_shape :
    qgompertzC64 (fin 0) (fin ((2 : ℝ) ^ (-1074 : ℤ))) (fin 1) = nan ∧
    qgompertzC64 (fin (1 / 2)) (fin ((2 : ℝ) ^ (-1074 : ℤ))) (fin 1) = nan ∧
    ¬ Dbl.le (qgompertzC64 (fin 0) (fin ((2 : ℝ) ^ (-1074 : ℤ))) (fin 1))
        (qgompertzC64 (fin (1 / 2)) (fin ((2 : ℝ) ^ (-1074 : ℤ))) (fin 1)) := by
  have h1 : qgompertzC64 (fin 0) (fin ((2 : ℝ) ^ (-1074 : ℤ))) (fin 1) = nan :=
    qgompertzC64_nan one_pos
  have h2 : qgompertzC64 (fin (1 / 2)) (fin ((2 : ℝ) ^ (-1074 : ℤ))) (fin 1) = nan :=
    qgompertzC64_absorbed_nan (a := -1074) (b := 0) (by norm_num) half_le_pred_one
      (two_zpow_pos _) (two_zpow_le (by norm_num)) le_rfl (by norm_num) (by norm_num)
      (by norm_num) (by norm_num) (by norm_num)
  refine ⟨h1, h2, ?_⟩
  rw [h1, h2]
  simp [Dbl.le]

/-- C5, amended. In binary64, for a normal positive double `shape`
(`2^-1022 ≤ shape`), `rate > 0` and `p1 ≤ p2` in `[0, 1 - 2^-53]` (the doubles of
`[0,1)`), both results are non-negative (possibly `+inf`, never NaN) and
`qgompertzC p1 shape rate <= qgompertzC p2 shape rate`. -/
theorem C5_monotone_in_p_binary64 (p1 p2 shape rate : ℝ) (h0 : 0 ≤ p1) (h12 : p1 ≤ p2)
    (h1 : p2 ≤ 1 - (2 : ℝ) ^ (-53 : ℤ)) (hs1 : (2 : ℝ) ^ (-1022 : ℤ) ≤ shape)
    (hs2 : shape ≤ (2 : ℝ) ^ (1024 : ℤ)) (hr : 0 < rate) :
    Dbl.le (fin 0) (qgompertzC64 (fin p1) (fin shape) (fin rate)) ∧
    Dbl.le (qgompertzC64 (fin p1) (fin shape) (fin rate))
      (qgompertzC64 (fin p2) (fin shape) (fin rate)) :=
  ⟨qgompertzC64_nonneg h0 (le_trans h12 h1) hs1 hs2 hr,
    qgompertzC64_mono_p h0 h12 h1 hs1 hs2 hr⟩

/-- Witness for C5 (amended) at `p1 = 1/4`, `p2 = 1/2`, `shape = 1`, `rate = 2`. -/
theorem C5_monotone_in_p_binary64_witness :
    Dbl.le (fin 0) (qgompertzC64 (fin (1 / 4)) (fin 1) (fin 2)) ∧
    Dbl.le (qgompertzC64 (fin (1 / 4)) (fin 1) (fin 2))
      (qgompertzC64 (fin (1 / 2)) (fin 1) (fin 2)) :=
  C5_monotone_in_p_binary64 (1 / 4) (1 / 2) 1 2 (by norm_num) (by norm_num) half_le_pred_one
    one_normal_lo one_normal_hi (by norm_num)

/-- C6, refuted as stated. At the subnormal shape `2^-1030` and `rate = 1`,
`qgompertzC(0, shape, rate)` is NaN in binary64, not `0`: `1/shape` overflows to `+inf`
and is multiplied by `log(1) = 0`. -/
theorem C6_nan_at_p_zero :
    qgompertzC64 (fin 0) (fin ((2 : ℝ) ^ (-1030 : ℤ))) (fin 1) = nan ∧
    qgompertzC64 (fin 0) (fin ((2 : ℝ) ^ (-1030 : ℤ))) (fin 1) ≠ fin 0 := by
  have h : qgompertzC64 (fin 0) (fin ((2 : ℝ) ^ (-1030 : ℤ))) (fin 1) = nan := by
    rw [qgompertzC64_at_zero (two_zpow_pos _) one_pos,
      if_pos (recip_overflow (two_zpow_pos _) (two_zpow_le (by norm_num)))]
  refine ⟨h, ?_⟩
  rw [h]
  intro h0
  cases h0

/-- C6, amended. In binary64, for `shape > 0` and `rate > 0`, `qgompertzC(0, shape, rate)`
is `0` unless `1/shape` overflows, in which case it is NaN. It is `0` for every normal
double `shape` (`2^-1022 ≤ shape`) and NaN for every `shape ≤ 2^-1024`. -/
theorem C6_zero_at_p_zero_binary64 (shape rate : ℝ) (hs : 0 < shape) (hr : 0 < rate) :
    qgompertzC64 (fin 0) (fin shape) (fin rate)
      = (if Dbl.div64 (fin 1) (fin shape) = pinf then nan else fin 0) ∧
    ((2 : ℝ) ^ (-1022 : ℤ) ≤ shape → shape ≤ (2 : ℝ) ^ (1024 : ℤ) →
      qgompertzC64 (fin 0) (fin shape) (fin rate) = fin 0) ∧
    (shape ≤ (2 : ℝ) ^ (-1024 : ℤ) →
      qgompertzC64 (fin 0) (fin shape) (fin rate) = nan) := by
  have h := qgompertzC64_at_zero hs hr
  refine ⟨h, ?_, ?_⟩
  · intro hs1 hs2
    obtain ⟨g, hg, -⟩ := recip_finite hs1 hs2
    rw [h, hg, if_neg (by simp)]
  · intro hs2
    rw [h, if_pos (recip_overflow hs hs2)]

/-- Witness for C6 (amended) at `shape = 3`, `rate = 2`. -/
theorem C6_zero_at_p_zero_binary64_witness :
    qgompertzC64 (fin 0) (fin 3) (fin 2) = fin 0 :=
  (C6_zero_at_p_zero_binary64 3 2 (by norm_num) (by norm_num)).2.1
    (le_trans one_normal_lo (by norm_num)) (le_trans (by norm_num) two_le_normal_hi)

/-- C4, refuted as stated. At `shape = -1`, `rate = 1`, `p = 0` the function returns
`+inf`, and yet the finite time `t = 0` has Gompertz distribution function `0 = p`. -/
theorem C4_sentinel_with_finite_solution :
    qgompertzC (fin 0) (fin (-1)) (fin 1) = pinf ∧
    ∃ t : ℝ, 0 ≤ t ∧ gompertzCDF (-1) 1 t = 0 := by
  refine ⟨by simp [qgompertzC, Dbl.eq, Dbl.lt], 0, le_rfl, ?_⟩
  simp [gompertzCDF]

/-- C4, amended. For `shape < 0`, `rate > 0` and `p` in `[0,1)` the function returns
`+inf`, and no finite `t ≥ 0` has Gompertz distribution function `p` exactly when
`p ≥ 1 - exp(rate/shape)`; below that bound a finite solution exists. -/
theorem C4_sentinel_iff_above_bound (p shape rate : ℝ) (hs : shape < 0) (hr : 0 < rate)
    (hp0 : 0 ≤ p) (hp1 : p < 1) :
    qgompertzC (fin p) (fin shape) (fin rate) = pinf ∧
    ((¬ ∃ t : ℝ, 0 ≤ t ∧ gompertzCDF shape rate t = p) ↔
      1 - Real.exp (rate / shape) ≤ p) := by
  have _ := hp1
  refine ⟨by simp [qgompertzC, Dbl.eq, Dbl.lt, hs, hs.ne], ?_, ?_⟩
  · intro hno
    by_contra hlt
    exact hno (gompertzCDF_attained p shape rate hs hr hp0 (not_le.mp hlt))
  · rintro hle ⟨t, -, ht⟩
    have := gompertzCDF_lt_bound shape rate t hs hr
    linarith

/-- Witness for C4 (amended) at `shape = -1`, `rate = 1`, `p = 0`, where the bound
`1 - exp(-1)` lies above `p`. -/
theorem C4_sentinel_iff_above_bound_witness :
    qgompertzC (fin 0) (fin (-1)) (fin 1) = pinf ∧
    ((¬ ∃ t : ℝ, 0 ≤ t ∧ gompertzCDF (-1) 1 t = 0) ↔
      1 - Real.exp (1 / (-1)) ≤ 0) :=
  C4_sentinel_iff_above_bound 0 (-1) 1 (by norm_num) (by norm_num) (by norm_num)
    (by norm_num)

/-- C7, refuted as stated. At `p = 0`, `shape = -2`, `rate = 3` the function returns
`+inf`, which is not `0`. -/
theorem C7_neg_shape_not_zero :
    qgompertzC (fin 0) (fin (-2)) (fin 3) = pinf ∧
    qgompertzC (fin 0) (fin (-2)) (fin 3) ≠ fin 0 := by
  have h : qgompertzC (fin 0) (fin (-2)) (fin 3) = pinf := by
    simp [qgompertzC, Dbl.eq, Dbl.lt]
  refine ⟨h, ?_⟩
  rw [h]
  intro h0
  cases h0

/-- C7, amended. In binary64, for `rate > 0`, `qgompertzC(0, shape, rate)` is `+inf` in
the `shape < 0` branch, `0` in the `shape == 0` branch, and in the `shape > 0` branch `0`
unless `1/shape` overflows (then NaN); it is `0` for every normal double `shape > 0`. -/
theorem C7_p_zero_all_branches_binary64 (shape rate : ℝ) (hr : 0 < rate) :
    qgompertzC64 (fin 0) (fin shape) (fin rate)
      = (if shape < 0 then pinf else if shape = 0 then fin 0
          else if Dbl.div64 (fin 1) (fin shape) = pinf then nan else fin 0) ∧
    ((2 : ℝ) ^ (-1022 : ℤ) ≤ shape → shape ≤ (2 : ℝ) ^ (1024 : ℤ) →
      qgompertzC64 (fin 0) (fin shape) (fin rate) = fin 0) := by
  have hpos : ∀ hs : 0 < shape, qgompertzC64 (fin 0) (fin shape) (fin rate)
      = (if Dbl.div64 (fin 1) (fin shape) = pinf then nan else fin 0) :=
    fun hs => qgompertzC64_at_zero hs hr
  constructor
  · rcases lt_trichotomy shape 0 with hs | hs | hs
    · simp [qgompertzC64, Dbl.eq, Dbl.lt, hs, hs.ne]
    · subst hs
      simp [qgompertzC64, qexp64, R_DT_0, R_D__0, Dbl.eq, Dbl.lt, Dbl.isnan, not_lt.mpr hr.le]
    · rw [hpos hs, if_neg (not_lt.mpr hs.le), if_neg hs.ne']
  · intro hs1 hs2
    obtain ⟨g, hg, -⟩ := recip_finite hs1 hs2
    rw [hpos (lt_of_lt_of_le (two_zpow_pos _) hs1), hg, if_neg (by simp)]

/-- Witness for C7 (amended) in the `shape == 0` branch, at `rate = 2`. -/
theorem C7_p_zero_all_branches_binary64_witness :
    qgompertzC64 (fin 0) (fin 0) (fin 2)
      = (if (0 : ℝ) < 0 then pinf else if (0 : ℝ) = 0 then fin 0
          else if Dbl.div64 (fin 1) (fin 0) = pinf then nan else fin 0) :=
  (C7_p_zero_all_branches_binary64 0 2 (by norm_num)).1

/-- C8. For `dist = "gompertz"`, `rsurv` is `rgompertzC (exp par2) (exp location)`: one
call `runif(0,1)` is made, and with `u` its value the result is
`qgompertzC u (exp par2) (exp location)`, `par2` feeding the shape and `location` the rate. -/
theorem C8_rsurv_gompertz {σ : Type} (R : Sampler σ) (location par2 : Dbl) (s : RState σ) :
    rsurv R location par2 "gompertz" s
      = rgompertzC R (Dbl.exp par2) (Dbl.exp location) s ∧
    rsurv R location par2 "gompertz" s
      = (qgompertzC (R (Call.runif (fin 0) (fin 1)) s.gen).1 (Dbl.exp par2) (Dbl.exp location),
          ⟨(R (Call.runif (fin 0) (fin 1)) s.gen).2,
            s.trace ++ [Call.runif (fin 0) (fin 1)]⟩) := by
  have h : rsurv R location par2 "gompertz" s
      = rgompertzC R (Dbl.exp par2) (Dbl.exp location) s := by
    simp [rsurv]
  exact ⟨h, by rw [h]; rfl⟩

/-- C9. For `dist = "exponential"`, `rsurv` returns the value of the external exponential
sampler called with `1 / exp(location)`, and for `location = 0` that argument is
exactly `1`. -/
theorem C9_rsurv_exponential {σ : Type} (R : Sampler σ) (location par2 : Dbl)
    (s : RState σ) :
    rsurv R location par2 "exponential" s
      = ((R (Call.rexp (Dbl.div (fin 1) (Dbl.exp location))) s.gen).1,
          ⟨(R (Call.rexp (Dbl.div (fin 1) (Dbl.exp location))) s.gen).2,
            s.trace ++ [Call.rexp (Dbl.div (fin 1) (Dbl.exp location))]⟩) ∧
    rsurv R (fin 0) par2 "exponential" s
      = ((R (Call.rexp (fin 1)) s.gen).1,
          ⟨(R (Call.rexp (fin 1)) s.gen).2, s.trace ++ [Call.rexp (fin 1)]⟩) := by
  refine ⟨by simp [rsurv, draw], ?_⟩
  simp [rsurv, draw, Dbl.div, Dbl.exp]

/-- C10. For `dist = "weibull"`, `rsurv` returns the value of the external Weibull sampler
called with `exp(par2)` as first argument (shape) and `exp(location)` as second (scale). -/
theorem C10_rsurv_weibull {σ : Type} (R : Sampler σ) (location par2 : Dbl) (s : RState σ) :
    rsurv R location par2 "weibull" s
      = ((R (Call.rweibull (Dbl.exp par2) (Dbl.exp location)) s.gen).1,
          ⟨(R (Call.rweibull (Dbl.exp par2) (Dbl.exp location)) s.gen).2,
            s.trace ++ [Call.rweibull (Dbl.exp par2) (Dbl.exp location)]⟩) := by
  simp [rsurv, draw]

/-- C11. For every `dist` different from `"exponential"`, `"weibull"` and `"gompertz"`
(string equality is exact, hence case-sensitive), `rsurv` returns exactly `0.0`. -/
theorem C11_unrecognised_returns_zero {σ : Type} (R : Sampler σ) (location par2 : Dbl)
    (dist : String) (s : RState σ) (h1 : dist ≠ "exponential") (h2 : dist ≠ "weibull")
    (h3 : dist ≠ "gompertz") :
    (rsurv R location par2 dist s).1 = fin 0 := by
  simp [rsurv, h1, h2, h3]

/-- Witness for C11 at `dist = "Weibull"` (capitalised, hence unrecognised), with a
sampler that would return `7`. -/
theorem C11_unrecognised_returns_zero_witness :
    (rsurv (fun (_ : Call) (g : Unit) => (fin 7, g)) (fin 1) (fin 2) "Weibull"
      ⟨(), []⟩).1 = fin 0 :=
  C11_unrecognised_returns_zero _ _ _ "Weibull" _ (by decide) (by decide) (by decide)

/-- C12. `rgompertzC shape rate` makes exactly one call, `runif(0,1)`, and with `u` the
value of that call it returns `qgompertzC u shape rate`: the generator advances once and
the trace grows by that single call. -/
theorem C12_rgompertzC_one_uniform_draw {σ : Type} (R : Sampler σ) (shape rate : Dbl)
    (s : RState σ) :
    rgompertzC R shape rate s
      = (qgompertzC (R (Call.runif (fin 0) (fin 1)) s.gen).1 shape rate,
          ⟨(R (Call.runif (fin 0) (fin 1)) s.gen).2,
            s.trace ++ [Call.runif (fin 0) (fin 1)]⟩) ∧
    (rgompertzC R shape rate s).2.trace.length = s.trace.length + 1 ∧
    callsTo Source.uniform (rgompertzC R shape rate s).2.trace
      = callsTo Source.uniform s.trace + 1 := by
  refine ⟨rfl, ?_, ?_⟩
  · simp [rgompertzC, draw]
  · simp [rgompertzC, draw, callsTo, Call.source]

/-- C13. Each recognised branch of `rsurv` appends exactly one call to the trace: a call
to the exponential sampler for `"exponential"`, to the Weibull sampler for `"weibull"`,
to the uniform source for `"gompertz"`; the call counts of the other two sources are
unchanged. -/
theorem C13_one_draw_per_branch {σ : Type} (R : Sampler σ) (location par2 : Dbl)
    (s : RState σ) :
    ((rsurv R location par2 "exponential" s).2.trace
        = s.trace ++ [Call.rexp (Dbl.div (fin 1) (Dbl.exp location))] ∧
      callsTo Source.exponential (rsurv R location par2 "exponential" s).2.trace
        = callsTo Source.exponential s.trace + 1 ∧
      callsTo Source.weibull (rsurv R location par2 "exponential" s).2.trace
        = callsTo Source.weibull s.trace ∧
      callsTo Source.uniform (rsurv R location par2 "exponential" s).2.trace
        = callsTo Source.uniform s.trace) ∧
    ((rsurv R location par2 "weibull" s).2.trace
        = s.trace ++ [Call.rweibull (Dbl.exp par2) (Dbl.exp location)] ∧
      callsTo Source.weibull (rsurv R location par2 "weibull" s).2.trace
        = callsTo Source.weibull s.trace + 1 ∧
      callsTo Source.exponential (rsurv R location par2 "weibull" s).2.trace
        = callsTo Source.exponential s.trace ∧
      callsTo Source.uniform (rsurv R location par2 "weibull" s).2.trace
        = callsTo Source.uniform s.trace) ∧
    ((rsurv R location par2 "gompertz" s).2.trace
        = s.trace ++ [Call.runif (fin 0) (fin 1)] ∧
      callsTo Source.uniform (rsurv R location par2 "gompertz" s).2.trace
        = callsTo Source.uniform s.trace + 1 ∧
      callsTo Source.exponential (rsurv R location par2 "gompertz" s).2.trace
        = callsTo Source.exponential s.trace ∧
      callsTo Source.weibull (rsurv R location par2 "gompertz" s).2.trace
        = callsTo Source.weibull s.trace) := by
  refine ⟨?_, ?_, ?_⟩ <;> simp [rsurv, rgompertzC, draw, callsTo, Call.source]

/-- C18. For every `dist` different from `"exponential"`, `"weibull"` and `"gompertz"`,
`rsurv` calls no random source: the random-source state (generator and trace) is returned
unchanged. -/
theorem C18_unrecognised_no_draw {σ : Type} (R : Sampler σ) (location par2 : Dbl)
    (dist : String) (s : RState σ) (h1 : dist ≠ "exponential") (h2 : dist ≠ "weibull")
    (h3 : dist ≠ "gompertz") :
    (rsurv R location par2 dist s).2 = s ∧
    (rsurv R location par2 dist s).2.trace = s.trace := by
  simp [rsurv, h1, h2, h3]

/-- Witness for C18 at `dist = "unknown"`, with a generator that counts its calls. -/
theorem C18_unrecognised_no_draw_witness :
    (rsurv (fun (_ : Call) (g : Nat) => (fin 7, g + 1)) (fin 1) (fin 2) "unknown"
        ⟨0, []⟩).2 = ⟨0, []⟩ ∧
    (rsurv (fun (_ : Call) (g : Nat) => (fin 7, g + 1)) (fin 1) (fin 2) "unknown"
        ⟨0, []⟩).2.trace = [] :=
  C18_unrecognised_no_draw _ _ _ "unknown" _ (by decide) (by decide) (by decide)

/-- C19. Non-interference. For `"exponential"`, two runs from the same state that differ
only in `par2` call the exponential sampler with the same argument and return the same
value and state; for an unrecognised `dist`, runs that differ in `location` and `par2`
return the same value and state. -/
theorem C19_unused_parameters {σ : Type} (R : Sampler σ) (location location2 par2 par2b : Dbl)
    (dist : String) (s : RState σ) (h1 : dist ≠ "exponential") (h2 : dist ≠ "weibull")
    (h3 : dist ≠ "gompertz") :
    rsurv R location par2 "exponential" s = rsurv R location par2b "exponential" s ∧
    (rsurv R location par2 "exponential" s).2.trace
      = s.trace ++ [Call.rexp (Dbl.div (fin 1) (Dbl.exp location))] ∧
    (rsurv R location par2b "exponential" s).2.trace
      = s.trace ++ [Call.rexp (Dbl.div (fin 1) (Dbl.exp location))] ∧
    rsurv R location par2 dist s = rsurv R location2 par2b dist s := by
  refine ⟨by simp [rsurv], by simp [rsurv, draw], by simp [rsurv, draw], ?_⟩
  simp [rsurv, h1, h2, h3]

/-- Witness for C19 with `dist = "unknown"`, parameters `(1, 2)` against `(3, 4)`. -/
theorem C19_unused_parameters_witness :
    rsurv (fun (_ : Call) (g : Nat) => (fin 7, g + 1)) (fin 1) (fin 2) "unknown" ⟨0, []⟩
      = rsurv (fun (_ : Call) (g : Nat) => (fin 7, g + 1)) (fin 3) (fin 4) "unknown" ⟨0, []⟩ :=
  (C19_unused_parameters (fun (_ : Call) (g : Nat) => (fin 7, g + 1)) (fin 1) (fin 3) (fin 2)
    (fin 4) "unknown" ⟨0, []⟩ (by decide) (by decide) (by decide)).2.2.2

/-- C14, refuted as stated. At `p = 1/2`, the subnormal shape `2^-1030` and `rate = 2`
(inside `shape > 0`, `rate > 0`, `p` in `[0,1)`) the binary64 result is NaN, hence not a
non-negative number: `1/shape` overflows to `+inf` and multiplies an outer logarithm that
is `0`. -/
theorem C14_nan_inside_domain :
    qgompertzC64 (fin (1 / 2)) (fin ((2 : ℝ) ^ (-1030 : ℤ))) (fin 2) = nan ∧
    ¬ Dbl.le (fin 0) (qgompertzC64 (fin (1 / 2)) (fin ((2 : ℝ) ^ (-1030 : ℤ))) (fin 2)) := by
  have h : qgompertzC64 (fin (1 / 2)) (fin ((2 : ℝ) ^ (-1030 : ℤ))) (fin 2) = nan :=
    qgompertzC64_absorbed_nan (a := -1030) (b := 1) (by norm_num) half_le_pred_one
      (two_zpow_pos _) (two_zpow_le (by norm_num)) le_rfl (by norm_num) (by norm_num)
      (by norm_num) (by norm_num) (by norm_num)
  refine ⟨h, ?_⟩
  rw [h]
  simp [Dbl.le]

/-- C14, amended. In binary64, for `shape > 0`, `rate > 0` and `p` in `[0, 1 - 2^-53]` (the
doubles of `[0,1)`) no logarithm domain error occurs: `1 - p` is computed positive, its
logarithm is at most `0`, the argument of the outer logarithm is computed at least `1`
(possibly `+inf`) and the outer logarithm is at least `0`. The result is the product of
`1/shape` with that logarithm; for a normal double `shape` (`2^-1022 ≤ shape`) it is
non-negative (possibly `+inf`, never NaN). -/
theorem C14_no_log_domain_error_binary64 (p shape rate : ℝ) (hp0 : 0 ≤ p)
    (hp1 : p ≤ 1 - (2 : ℝ) ^ (-53 : ℤ)) (hs : 0 < shape) (hr : 0 < rate) :
    Dbl.lt (fin 0) (Dbl.sub64 (fin 1) (fin p)) ∧
    Dbl.le (Dbl.log64 (Dbl.sub64 (fin 1) (fin p))) (fin 0) ∧
    Dbl.le (fin 1) (outerArg64 (fin p) (fin shape) (fin rate)) ∧
    Dbl.le (fin 0) (Dbl.log64 (outerArg64 (fin p) (fin shape) (fin rate))) ∧
    qgompertzC64 (fin p) (fin shape) (fin rate)
      = Dbl.mul64 (Dbl.div64 (fin 1) (fin shape))
          (Dbl.log64 (outerArg64 (fin p) (fin shape) (fin rate))) ∧
    ((2 : ℝ) ^ (-1022 : ℤ) ≤ shape → shape ≤ (2 : ℝ) ^ (1024 : ℤ) →
      Dbl.le (fin 0) (qgompertzC64 (fin p) (fin shape) (fin rate))) :=
  ⟨(inner_arg_bounds hp0 hp1).1, inner_log_nonpos hp0 hp1, one_le_outerArg64 hp0 hp1 hs hr,
    outer_log_nonneg hp0 hp1 hs hr, qgompertzC64_pos _ _ hs,
    fun hs1 hs2 => qgompertzC64_nonneg hp0 hp1 hs1 hs2 hr⟩

/-- Witness for C14 (amended) at `p = 1/2`, `shape = 1`, `rate = 2`. -/
theorem C14_no_log_domain_error_binary64_witness :
    Dbl.le (fin 1) (outerArg64 (fin (1 / 2)) (fin 1) (fin 2)) ∧
    Dbl.le (fin 0) (qgompertzC64 (fin (1 / 2)) (fin 1) (fin 2)) :=
  ⟨(C14_no_log_domain_error_binary64 (1 / 2) 1 2 (by norm_num) half_le_pred_one (by norm_num)
      (by norm_num)).2.2.1,
    (C14_no_log_domain_error_binary64 (1 / 2) 1 2 (by norm_num) half_le_pred_one (by norm_num)
      (by norm_num)).2.2.2.2.2 one_normal_lo one_normal_hi⟩

/-- C16 (code defect, the one of C1). At `p = 1/2`, `rate = 2` the `shape > 0` branch
tends to the exponential quantile `ln 2 / 2` as the shape tends to `0` from above, while
the `shape == 0` branch returns `2 * ln 2`, a different number: the branch for `0` is not
the limit. -/
theorem C16_zero_shape_is_not_the_limit :
    Filter.Tendsto (fun sh : ℝ => Dbl.toReal (qgompertzC (fin (1 / 2)) (fin sh) (fin 2)))
      (nhdsWithin 0 (Set.Ioi 0)) (nhds (Real.log 2 / 2)) ∧
    qgompertzC (fin (1 / 2)) (fin 0) (fin 2) = fin (2 * Real.log 2) ∧
    Real.log 2 / 2 ≠ 2 * Real.log 2 ∧
    ¬ Filter.Tendsto (fun sh : ℝ => Dbl.toReal (qgompertzC (fin (1 / 2)) (fin sh) (fin 2)))
      (nhdsWithin 0 (Set.Ioi 0))
      (nhds (Dbl.toReal (qgompertzC (fin (1 / 2)) (fin 0) (fin 2)))) := by
  have hlog : Real.log (1 - 1 / 2) = -Real.log 2 := by
    have : (1 : ℝ) - 1 / 2 = 2⁻¹ := by norm_num
    rw [this, Real.log_inv]
  have hpos : 0 < Real.log 2 := Real.log_pos (by norm_num)
  have hlim : Filter.Tendsto
      (fun sh : ℝ => Dbl.toReal (qgompertzC (fin (1 / 2)) (fin sh) (fin 2)))
      (nhdsWithin 0 (Set.Ioi 0)) (nhds (Real.log 2 / 2)) := by
    have h := qgompertzC_tendsto (1 / 2) 2 (by norm_num) (by norm_num) (by norm_num)
    rw [hlog, neg_neg] at h
    exact h
  have hval : qgompertzC (fin (1 / 2)) (fin 0) (fin 2) = fin (2 * Real.log 2) := by
    rw [qgompertzC_zero_shape (1 / 2) 2 (by norm_num) (by norm_num) (by norm_num), hlog]
    congr 1
    ring
  have hne : Real.log 2 / 2 ≠ 2 * Real.log 2 := by
    intro h
    linarith
  refine ⟨hlim, hval, hne, ?_⟩
  intro h
  rw [hval] at h
  exact hne (tendsto_nhds_unique hlim h)

/-- C17, refuted as stated. In binary64, at `p = 1/2` and the subnormal shape `2^-1030`
the results at rates `1` and `2` are both NaN, so the comparison is false; and with a
uniform draw `u = 1/2` and `par2 = -1000` (where `exp(par2)` is `0` and the `shape == 0`
branch is taken) the `"gompertz"` result of `rsurv` rises from at most `1` at
`location = 0` to at least `2` at `location = 2`. -/
theorem C17_not_antitone :
    ¬ Dbl.le (qgompertzC64 (fin (1 / 2)) (fin ((2 : ℝ) ^ (-1030 : ℤ))) (fin 2))
        (qgompertzC64 (fin (1 / 2)) (fin ((2 : ℝ) ^ (-1030 : ℤ))) (fin 1)) ∧
    ∃ v1 v2 : ℝ,
      (rsurv64 (fun (_ : Call) (g : Unit) => (fin (1 / 2), g)) (fin 0) (fin (-1000)) "gompertz"
        ⟨(), []⟩).1 = fin v1 ∧
      (rsurv64 (fun (_ : Call) (g : Unit) => (fin (1 / 2), g)) (fin 2) (fin (-1000)) "gompertz"
        ⟨(), []⟩).1 = fin v2 ∧
      v1 ≤ 1 ∧ 2 ≤ v2 ∧ v1 < v2 := by
  have hl := Real.log_two_gt_d9
  have hl2 := Real.log_two_lt_d9
  constructor
  · have h : qgompertzC64 (fin (1 / 2)) (fin ((2 : ℝ) ^ (-1030 : ℤ))) (fin 2) = nan :=
      qgompertzC64_absorbed_nan (a := -1030) (b := 1) (by norm_num) half_le_pred_one
        (two_zpow_pos _) (two_zpow_le (by norm_num)) le_rfl (by norm_num) (by norm_num)
        (by norm_num) (by norm_num) (by norm_num)
    rw [h]
    simp [Dbl.le]
  · have hu : Dbl.exp64 (fin (-1000)) = fin 0 := exp64_underflow (by norm_num)
    -- location = 0
    obtain ⟨L, hL1, hL2, hq⟩ := qgompertzC64_zero_shape_half (c := 1) (by norm_num)
    obtain ⟨v1, hv1, -, hv1hi⟩ := ofReal_of_mem (x := 1 * L) (j := -1) (k := 0)
      (by norm_num) (by norm_num) (by norm_num; linarith) (by norm_num; linarith)
    -- location = 2
    obtain ⟨ρ, hρ, hρ1, hρ2⟩ := exp64_mem (x := 2) (j := 2) (k := 3) (by norm_num)
      (by norm_num) (by push_cast; linarith) (by push_cast; linarith)
    have hρ0 : 0 < ρ := lt_of_lt_of_le (two_zpow_pos _) hρ1
    obtain ⟨L', hL1', hL2', hq'⟩ := qgompertzC64_zero_shape_half hρ0.le
    have hlo : (2 : ℝ) ^ (1 : ℤ) ≤ ρ * L' := by
      have h2 : (2 : ℝ) ^ (2 : ℤ) = 4 := by norm_num
      rw [h2] at hρ1
      have : ρ * (1 / 2) ≤ ρ * L' := mul_le_mul_of_nonneg_left hL1' hρ0.le
      norm_num
      linarith
    have hhi : ρ * L' ≤ (2 : ℝ) ^ (3 : ℤ) := by
      have : ρ * L' ≤ ρ * 1 := mul_le_mul_of_nonneg_left hL2' hρ0.le
      linarith
    obtain ⟨v2, hv2, hv2lo, -⟩ := ofReal_of_mem (by norm_num) (by norm_num) hlo hhi
    have hv1' : v1 ≤ 1 := by simpa using hv1hi
    have hv2' : (2 : ℝ) ≤ v2 := by simpa using hv2lo
    refine ⟨v1, v2, ?_, ?_, hv1', hv2', by linarith⟩
    · rw [rsurv64_gompertz, hu, exp64_zero, hq, hv1]
    · rw [rsurv64_gompertz, hu, hρ, hq', hv2]

/-- C17, amended. In binary64, for a normal double `shape` (`2^-1022 ≤ shape`), `p` in
`[0, 1 - 2^-53]` and `0 < rate1 ≤ rate2`, the result at `rate2` is at most the result at
`rate1` (both non-negative, possibly `+inf`, never NaN); and for a uniform draw `u` in
`(0, 1 - 2^-53]`, `par2` in `[-700, 700]` and `-700 ≤ location1 ≤ location2 ≤ 700`, the
`"gompertz"` result of `rsurv` at `location2` is at most the one at `location1`. -/
theorem C17_antitone_in_rate_binary64 {σ : Type} (p shape rate1 rate2 : ℝ) (hp0 : 0 ≤ p)
    (hp1 : p ≤ 1 - (2 : ℝ) ^ (-53 : ℤ)) (hs1 : (2 : ℝ) ^ (-1022 : ℤ) ≤ shape)
    (hs2 : shape ≤ (2 : ℝ) ^ (1024 : ℤ)) (hr1 : 0 < rate1) (hr12 : rate1 ≤ rate2)
    (R : Sampler σ) (s : RState σ) (u par2 location1 location2 : ℝ)
    (hu : (R (Call.runif (fin 0) (fin 1)) s.gen).1 = fin u) (h0 : 0 < u)
    (h1 : u ≤ 1 - (2 : ℝ) ^ (-53 : ℤ)) (hpar1 : -700 ≤ par2) (hpar2 : par2 ≤ 700)
    (hl1 : -700 ≤ location1) (hloc : location1 ≤ location2) (hl2 : location2 ≤ 700) :
    Dbl.le (qgompertzC64 (fin p) (fin shape) (fin rate2))
      (qgompertzC64 (fin p) (fin shape) (fin rate1)) ∧
    Dbl.le (rsurv64 R (fin location2) (fin par2) "gompertz" s).1
      (rsurv64 R (fin location1) (fin par2) "gompertz" s).1 := by
  refine ⟨qgompertzC64_anti_rate hp0 hp1 hs1 hs2 hr1 hr12, ?_⟩
  obtain ⟨σ0, hσ, hσ1, hσ2⟩ := exp64_normal hpar1 hpar2
  obtain ⟨ρ1, hρ1, hρ1lo, -⟩ := exp64_normal hl1 (le_trans hloc hl2)
  obtain ⟨ρ2, hρ2, -, -⟩ := exp64_normal (le_trans hl1 hloc) hl2
  have hmono := exp64_mono hloc
  rw [hρ1, hρ2] at hmono
  have h12 : ρ1 ≤ ρ2 := by simpa [Dbl.le] using hmono
  rw [rsurv64_gompertz, rsurv64_gompertz, hu, hσ, hρ1, hρ2]
  exact qgompertzC64_anti_rate h0.le h1 hσ1 (le_trans hσ2 (two_zpow_le (by norm_num)))
    (lt_of_lt_of_le (two_zpow_pos _) hρ1lo) h12

/-- Witness for C17 (amended) at `p = 1/2`, `shape = 1`, rates `1 ≤ 2`, and locations
`0 ≤ 1` with `par2 = 0` and a uniform source returning `1/2`. -/
theorem C17_antitone_in_rate_binary64_witness :
    Dbl.le (qgompertzC64 (fin (1 / 2)) (fin 1) (fin 2))
      (qgompertzC64 (fin (1 / 2)) (fin 1) (fin 1)) ∧
    Dbl.le
      (rsurv64 (fun (_ : Call) (g : Unit) => (fin (1 / 2), g)) (fin 1) (fin 0) "gompertz"
        ⟨(), []⟩).1
      (rsurv64 (fun (_ : Call) (g : Unit) => (fin (1 / 2), g)) (fin 0) (fin 0) "gompertz"
        ⟨(), []⟩).1 :=
  C17_antitone_in_rate_binary64 (1 / 2) 1 1 2 (by norm_num) half_le_pred_one one_normal_lo
    one_normal_hi (by norm_num) (by norm_num) (fun (_ : Call) (g : Unit) => (fin (1 / 2), g))
    ⟨(), []⟩ (1 / 2) 0 0 1 rfl (by norm_num) half_le_pred_one (by norm_num) (by norm_num)
    (by norm_num) (by norm_num) (by norm_num)

end Hesim
